import Mathlib

/-!
Verification of the DrawDutchyCalculator path-search engine
(`CalculatePath.py`).  Unit amounts are modelled as rationals (the Python
code performs true division on them), runtime exceptions as `Except`
errors, and the global memoization dictionary as an explicitly threaded
association list.
-/

attribute [local semireducible] Rat.add Rat.sub Rat.mul Rat.inv

deriving instance DecidableEq for Except

/-- A group of units: a unit type, an amount, and a team label. -/
structure UnitGroup where
  type : String
  amount : ℚ
  team : String
deriving DecidableEq, Repr

/-- Runtime failures of the Python program: an out-of-range list index
(`IndexError`), the `ValueError` raised by `combine_units`, and fuel
exhaustion of the embedded recursion (which the termination theorem shows
never occurs with sufficient fuel). -/
inductive Err where
  | indexError
  | valueError
  | outOfFuel
deriving DecidableEq, Repr

/-- `-float('inf')` together with ordinary rational advantages. -/
inductive Adv where
  | negInf
  | val (q : ℚ)
deriving DecidableEq, Repr

/-- Python's `>` on advantages, where `negInf` models `-float('inf')`. -/
def Adv.gt : Adv → Adv → Bool
  | Adv.val a, Adv.val b => a > b
  | Adv.val _, Adv.negInf => true
  | Adv.negInf, _ => false

/-- The `COMBAT_RULES` dictionary: each attacker type maps to the type it
kills together with the `(units_required, kills_dealt)` ratio. -/
def combatRule : String → Option (String × ℚ × ℚ)
  | "archers" => some ("warriors", (2, 3))
  | "warriors" => some ("soldiers", (2, 2))
  | "soldiers" => some ("archers", (2, 2))
  | _ => none

/-- The combined test `unit1_type in COMBAT_RULES and
COMBAT_RULES[unit1_type]["kills"] == unit2_type`, returning the ratio. -/
def ruleKills (t1 t2 : String) : Option (ℚ × ℚ) :=
  match combatRule t1 with
  | some (k, r) => if k = t2 then some r else none
  | none => none

/-- `calculate_battle_outcome`: returns the pair of remaining amounts
(which may be negative; callers clamp by only keeping positive ones). -/
def calculate_battle_outcome (unit1_type : String) (unit1_amount : ℚ)
    (unit2_type : String) (unit2_amount : ℚ) : ℚ × ℚ :=
  if unit1_type = unit2_type ∨ unit1_type = "typeless" ∨ unit2_type = "typeless" then
    (unit1_amount - unit2_amount, unit2_amount - unit1_amount)
  else
    match ruleKills unit1_type unit2_type with
    | some (attacker_ratio, defender_ratio) =>
        (unit1_amount, unit2_amount - unit1_amount / attacker_ratio * defender_ratio)
    | none =>
      match ruleKills unit2_type unit1_type with
      | some (attacker_ratio, defender_ratio) =>
          (unit1_amount - unit2_amount / attacker_ratio * defender_ratio, unit2_amount)
      | none => (unit1_amount - unit2_amount, unit2_amount - unit1_amount)

/-- `combine_units`: merging same-team groups; `none` models the
`ValueError` raised on a cross-team combine. -/
def combine_units (unit1 unit2 : UnitGroup) : Option UnitGroup :=
  if unit1.team ≠ unit2.team then none
  else some
    { type := if unit1.amount ≥ unit2.amount then unit1.type else unit2.type,
      amount := unit1.amount + unit2.amount,
      team := unit1.team }

/-- `calculate_blue_advantage`: total blue amounts minus total red amounts. -/
def calculate_blue_advantage (units : List UnitGroup) : ℚ :=
  ((units.filter (fun u => u.team = "blue")).map (fun u => u.amount)).sum
  - ((units.filter (fun u => u.team = "red")).map (fun u => u.amount)).sum

/-- An entry of the `path_so_far` / `best_path_operations` list.  The
Python code stores a formatted string; the constructors record exactly the
data interpolated into that string. -/
inductive Op where
  | combineOp (unit1 unit2 newUnit : UnitGroup)
  | battleOp (unit1 unit2 : UnitGroup) (rem1 rem2 : ℚ)
deriving DecidableEq, Repr

/-- Lexicographic comparison of code-point sequences, which is exactly how
Python orders strings. -/
def codesLt : List ℕ → List ℕ → Bool
  | _, [] => false
  | [], _ :: _ => true
  | x :: xs, y :: ys =>
    if x < y then true else if y < x then false else codesLt xs ys

/-- Python's `<` on strings: lexicographic on Unicode code points. -/
def strLt (a b : String) : Bool :=
  codesLt (a.data.map Char.toNat) (b.data.map Char.toNat)

/-- Lexicographic `≤` on the `(type, amount, team)` triples used by
Python's `sorted` when building a memoization key.  (Any total
antisymmetric order yields the same sorted canonical form, hence the same
key collisions as Python's own tuple order.) -/
def tripLe (a b : String × ℚ × String) : Bool :=
  strLt a.1 b.1 ||
    (a.1 = b.1 && (decide (a.2.1 < b.2.1) ||
      (a.2.1 = b.2.1 && decide (a.2.2 ≤ b.2.2))))

/-- Insertion into a sorted list, the building block of `sortLe`. -/
def insertLe {α : Type} (le : α → α → Bool) (a : α) : List α → List α
  | [] => [a]
  | b :: bs => if le a b then a :: b :: bs else b :: insertLe le a bs

/-- Python's `sorted` for a total antisymmetric `le` (insertion sort; any
sorting algorithm yields this same list for such an order). -/
def sortLe {α : Type} (le : α → α → Bool) : List α → List α
  | [] => []
  | a :: as => insertLe le a (sortLe le as)

/-- The memoization key
`(tuple(sorted([(u['type'], u['amount'], u['team']) for u in current_units])), remaining_indices)`. -/
def stateKey (units : List UnitGroup) (remaining : List ℕ) :
    (List (String × ℚ × String)) × List ℕ :=
  (sortLe tripLe (units.map (fun u => (u.type, u.amount, u.team))), remaining)

/-- The global `memo` dictionary, threaded explicitly. -/
abbrev Memo : Type :=
  List (((List (String × ℚ × String)) × List ℕ) × (Adv × List Op))

/-- Dictionary lookup; insertion conses, so the most recent binding for a
key wins, matching dictionary overwrite semantics. -/
def memoLookup (memo : Memo) (k : (List (String × ℚ × String)) × List ℕ) :
    Option (Adv × List Op) :=
  match memo with
  | [] => none
  | (k1, v) :: rest => if k1 = k then some v else memoLookup rest k

def memoInsert (memo : Memo) (k : (List (String × ℚ × String)) × List ℕ)
    (v : Adv × List Op) : Memo :=
  (k, v) :: memo

/-- `[u for k, u in enumerate(current_units) if k != idx1 and k != idx2]`. -/
def keepOthers (units : List UnitGroup) (idx1 idx2 : ℕ) : List UnitGroup :=
  (units.enum.filter (fun p => p.1 ≠ idx1 ∧ p.1 ≠ idx2)).map Prod.snd

/-- `tuple(sorted(list(set(remaining_indices) - {idx1, idx2})))`. -/
def nextRemainingIndices (remaining : List ℕ) (idx1 idx2 : ℕ) : List ℕ :=
  sortLe (fun a b => a ≤ b)
    ((remaining.filter (fun r => r ≠ idx1 ∧ r ≠ idx2)).dedup)

/-- Python list indexing `current_units[idx]`, raising `IndexError` when
out of range. -/
def getUnit (units : List UnitGroup) (idx : ℕ) : Except Err UnitGroup :=
  match units[idx]? with
  | some u => Except.ok u
  | none => Except.error Err.indexError

/-- One branch the search will explore: the operation description, the
unit list passed to the recursive call, and the new remaining indices. -/
structure Cand where
  op : Op
  nextUnits : List UnitGroup
  nextRemaining : List ℕ
deriving DecidableEq, Repr

/-- One iteration of the combination loop body (lines 119-223): looks up
`unit2`, and if it is friendly produces the combine branch. -/
def combineCand (units : List UnitGroup) (remaining : List ℕ)
    (unit1 : UnitGroup) (idx1 idx2 : ℕ) : Except Err (List Cand) :=
  match getUnit units idx2 with
  | Except.error e => Except.error e
  | Except.ok unit2 =>
    if unit1.team = unit2.team then
      match combine_units unit1 unit2 with
      | some newUnit =>
          Except.ok [⟨Op.combineOp unit1 unit2 newUnit,
            keepOthers units idx1 idx2 ++ [newUnit],
            nextRemainingIndices remaining idx1 idx2⟩]
      | none => Except.error Err.valueError
    else Except.ok []

/-- One iteration of the battle loop body (lines 230-288): looks up
`unit2`, and if it is hostile produces the battle branch, keeping each
side's result only when its remaining amount is positive. -/
def battleCand (units : List UnitGroup) (remaining : List ℕ)
    (unit1 : UnitGroup) (idx1 idx2 : ℕ) : Except Err (List Cand) :=
  match getUnit units idx2 with
  | Except.error e => Except.error e
  | Except.ok unit2 =>
    if unit1.team ≠ unit2.team then
      let r := calculate_battle_outcome unit1.type unit1.amount unit2.type unit2.amount
      Except.ok [⟨Op.battleOp unit1 unit2 r.1 r.2,
        keepOthers units idx1 idx2
          ++ (if 0 < r.1 then [⟨unit1.type, r.1, unit1.team⟩] else [])
          ++ (if 0 < r.2 then [⟨unit2.type, r.2, unit2.team⟩] else []),
        nextRemainingIndices remaining idx1 idx2⟩]
    else Except.ok []

/-- Sequences loop iterations that each contribute a list of branches,
aborting on the first raised exception. -/
def gatherCands {α : Type} (f : α → Except Err (List Cand)) :
    List α → Except Err (List Cand)
  | [] => Except.ok []
  | x :: xs =>
    match f x with
    | Except.error e => Except.error e
    | Except.ok cs =>
      match gatherCands f xs with
      | Except.error e => Except.error e
      | Except.ok rest => Except.ok (cs ++ rest)

/-- Both inner loops for one value of `i_idx_in_remaining`: the combine
loop runs over the positions after `i`, the battle loop over all
positions other than `i`. -/
def candsAt (units : List UnitGroup) (remaining : List ℕ) (i idx1 : ℕ) :
    Except Err (List Cand) :=
  match getUnit units idx1 with
  | Except.error e => Except.error e
  | Except.ok unit1 =>
    match gatherCands (combineCand units remaining unit1 idx1)
        (remaining.drop (i + 1)) with
    | Except.error e => Except.error e
    | Except.ok combs =>
      match gatherCands (battleCand units remaining unit1 idx1)
          (((remaining.enum).filter (fun q => q.1 ≠ i)).map Prod.snd) with
      | Except.error e => Except.error e
      | Except.ok batts => Except.ok (combs ++ batts)

/-- All branches explored by the double loop of `find_best_path`, in
Python's iteration order. -/
def candidates (units : List UnitGroup) (remaining : List ℕ) :
    Except Err (List Cand) :=
  gatherCands (fun p => candsAt units remaining p.1 p.2) remaining.enum

/-- The accumulation loop over the explored branches: recursion, the
`advantage > max_advantage` update, and memo threading.  `recur` is the
recursive entry point at one less fuel. -/
def goCands
    (recur : List UnitGroup → List ℕ → List Op → Memo →
      Except Err ((Adv × List Op) × Memo))
    (path : List Op) :
    List Cand → (Adv × List Op) → Memo → Except Err ((Adv × List Op) × Memo)
  | [], best, memo => Except.ok (best, memo)
  | c :: rest, best, memo =>
    match recur c.nextUnits c.nextRemaining (path ++ [c.op]) memo with
    | Except.error e => Except.error e
    | Except.ok ((adv, p), memo1) =>
      goCands recur path rest
        (if Adv.gt adv best.1 then (adv, p) else best) memo1

/-- `find_best_path(current_units, remaining_indices, path_so_far)` with
the memo dictionary threaded explicitly and a fuel argument making the
recursion structural (the termination theorem shows
`remaining.length < fuel` prevents `outOfFuel`). -/
def find_best_path : ℕ → List UnitGroup → List ℕ → List Op → Memo →
    Except Err ((Adv × List Op) × Memo)
  | 0, _, _, _, _ => Except.error Err.outOfFuel
  | fuel + 1, units, remaining, path, memo =>
    let key := stateKey units remaining
    match memoLookup memo key with
    | some v => Except.ok (v, memo)
    | none =>
      if remaining = [] then
        let adv := Adv.val (calculate_blue_advantage units)
        Except.ok ((adv, path), memoInsert memo key (adv, path))
      else
        match candidates units remaining with
        | Except.error e => Except.error e
        | Except.ok cs =>
          match goCands (fun us rm p m => find_best_path fuel us rm p m)
              path cs (Adv.negInf, []) memo with
          | Except.error e => Except.error e
          | Except.ok ((maxAdv, bestOps), memo1) =>
            if bestOps = [] ∧ remaining.length = units.length then
              let adv := Adv.val (calculate_blue_advantage units)
              Except.ok ((adv, path), memoInsert memo1 key (adv, path))
            else
              Except.ok ((maxAdv, bestOps), memoInsert memo1 key (maxAdv, bestOps))

/-- The accumulation loop with memoization disabled: identical to
`goCands` but with no memo to thread. -/
def goCandsNm
    (recur : List UnitGroup → List ℕ → List Op → Except Err (Adv × List Op))
    (path : List Op) :
    List Cand → (Adv × List Op) → Except Err (Adv × List Op)
  | [], best => Except.ok best
  | c :: rest, best =>
    match recur c.nextUnits c.nextRemaining (path ++ [c.op]) with
    | Except.error e => Except.error e
    | Except.ok (adv, p) =>
      goCandsNm recur path rest
        (if Adv.gt adv best.1 then (adv, p) else best)

/-- `find_best_path` with memoization disabled (pure brute force): the
same recursion with the dictionary lookup and stores removed. -/
def find_best_path_nm : ℕ → List UnitGroup → List ℕ → List Op →
    Except Err (Adv × List Op)
  | 0, _, _, _ => Except.error Err.outOfFuel
  | fuel + 1, units, remaining, path =>
    if remaining = [] then
      Except.ok (Adv.val (calculate_blue_advantage units), path)
    else
      match candidates units remaining with
      | Except.error e => Except.error e
      | Except.ok cs =>
        match goCandsNm (fun us rm p => find_best_path_nm fuel us rm p)
            path cs (Adv.negInf, []) with
        | Except.error e => Except.error e
        | Except.ok (maxAdv, bestOps) =>
          if bestOps = [] ∧ remaining.length = units.length then
            Except.ok (Adv.val (calculate_blue_advantage units), path)
          else
            Except.ok (maxAdv, bestOps)

/-- `solve_unit_problem` with memoization disabled. -/
def solve_unit_problem_nm (units : List UnitGroup) :
    Except Err (Adv × List Op) :=
  find_best_path_nm (units.length + 1) units (List.range units.length) []

/-- `solve_unit_problem`: runs the search on the parsed group list with
all original indices available and a cleared memo. -/
def solve_unit_problem (units : List UnitGroup) : Except Err (Adv × List Op) :=
  match find_best_path (units.length + 1) units (List.range units.length) [] [] with
  | Except.error e => Except.error e
  | Except.ok (r, _) => Except.ok r

def exampleMain : List UnitGroup :=
  [⟨"warriors", 12, "red"⟩, ⟨"archers", 7, "blue"⟩,
   ⟨"soldiers", 4, "blue"⟩, ⟨"typeless", 10, "red"⟩]

def scenario1 : List UnitGroup :=
  [⟨"warriors", 12, "red"⟩, ⟨"archers", 7, "blue"⟩, ⟨"soldiers", 4, "blue"⟩]


/-! ### Helper lemmas about the ingredients of one search transition -/

lemma combine_units_some_amount {u1 u2 nu : UnitGroup}
    (h : combine_units u1 u2 = some nu) : nu.amount = u1.amount + u2.amount := by
  unfold combine_units at h
  by_cases ht : u1.team ≠ u2.team
  · simp [ht] at h
  · simp [ht] at h
    rw [← h]

lemma nodup_getElem?_ne {l : List ℕ} (h : l.Nodup) {i j a b : ℕ}
    (hi : l[i]? = some a) (hj : l[j]? = some b) (hij : i ≠ j) : a ≠ b := by
  rcases List.getElem?_eq_some.mp hi with ⟨hi1, hi2⟩
  rcases List.getElem?_eq_some.mp hj with ⟨hj1, hj2⟩
  intro hab
  subst hab
  exact hij (h.getElem_inj_iff.mp (hi2.trans hj2.symm))

lemma mem_insertLe {α : Type} {le : α → α → Bool} {a x : α} :
    ∀ {l : List α}, x ∈ insertLe le a l ↔ x = a ∨ x ∈ l := by
  intro l
  induction l with
  | nil => simp [insertLe]
  | cons b bs ih =>
    unfold insertLe
    by_cases h : le a b = true
    · rw [if_pos h]
      simp
    · rw [if_neg h]
      simp only [List.mem_cons, ih]
      tauto

lemma mem_sortLe {α : Type} {le : α → α → Bool} {x : α} :
    ∀ {l : List α}, x ∈ sortLe le l ↔ x ∈ l := by
  intro l
  induction l with
  | nil => simp [sortLe]
  | cons b bs ih =>
    unfold sortLe
    rw [mem_insertLe]
    simp only [List.mem_cons, ih]

lemma length_insertLe {α : Type} {le : α → α → Bool} {a : α} :
    ∀ {l : List α}, (insertLe le a l).length = l.length + 1 := by
  intro l
  induction l with
  | nil => simp [insertLe]
  | cons b bs ih =>
    unfold insertLe
    by_cases h : le a b = true
    · rw [if_pos h]
      simp
    · rw [if_neg h]
      simp only [List.length_cons, ih]

lemma length_sortLe {α : Type} {le : α → α → Bool} :
    ∀ {l : List α}, (sortLe le l).length = l.length := by
  intro l
  induction l with
  | nil => rfl
  | cons b bs ih =>
    unfold sortLe
    rw [length_insertLe, ih]
    rfl

lemma mem_nextRemainingIndices {remaining : List ℕ} {idx1 idx2 x : ℕ}
    (hx : x ∈ nextRemainingIndices remaining idx1 idx2) : x ∈ remaining := by
  unfold nextRemainingIndices at hx
  exact List.mem_of_mem_filter (List.mem_dedup.mp (mem_sortLe.mp hx))

lemma nextRemainingIndices_length_lt {remaining : List ℕ} {idx1 idx2 : ℕ}
    (h1 : idx1 ∈ remaining) :
    (nextRemainingIndices remaining idx1 idx2).length < remaining.length := by
  unfold nextRemainingIndices
  rw [length_sortLe]
  have hd := (List.dedup_sublist
    (remaining.filter (fun r => r ≠ idx1 ∧ r ≠ idx2))).length_le
  have hf : (remaining.filter (fun r => r ≠ idx1 ∧ r ≠ idx2)).length
      < remaining.length :=
    List.length_filter_lt_length_iff_exists.mpr ⟨idx1, h1, by simp⟩
  omega

lemma length_filter_ne_one {l : List ℕ} {a : ℕ} (h : l.Nodup) (ha : a ∈ l) :
    (l.filter (fun x => x ≠ a)).length + 1 = l.length := by
  induction l with
  | nil => cases ha
  | cons y ys ih =>
    rcases List.nodup_cons.mp h with ⟨hy, hys⟩
    by_cases hya : y = a
    · subst hya
      have heq : List.filter (fun x => decide (x ≠ y)) ys = ys :=
        List.filter_eq_self.mpr (fun x hx => by
          simp only [decide_eq_true_eq]
          intro hxy
          exact hy (hxy ▸ hx))
      rw [List.filter_cons, if_neg (by simp), heq]
      simp
    · have ha1 : a ∈ ys := by
        rcases List.mem_cons.mp ha with h1 | h1
        · exact absurd h1.symm hya
        · exact h1
      have := ih hys ha1
      simp only [List.filter_cons, decide_eq_true_eq]
      rw [if_pos hya]
      simp only [List.length_cons]
      omega

lemma length_filter_ne_two {l : List ℕ} {a b : ℕ} (h : l.Nodup)
    (ha : a ∈ l) (hb : b ∈ l) (hab : a ≠ b) :
    (l.filter (fun x => x ≠ a ∧ x ≠ b)).length + 2 = l.length := by
  have hsplit : l.filter (fun x => x ≠ a ∧ x ≠ b)
      = (l.filter (fun x => x ≠ a)).filter (fun x => x ≠ b) := by
    rw [List.filter_filter]
    exact List.filter_congr (fun x _ => by
      by_cases h1 : x = a <;> by_cases h2 : x = b <;> simp [h1, h2])
  have hb1 : b ∈ l.filter (fun x => x ≠ a) :=
    List.mem_filter.mpr ⟨hb, by simp [hab.symm]⟩
  have h2 := length_filter_ne_one (h.filter (fun x => decide (x ≠ a))) hb1
  have h1 := length_filter_ne_one h ha
  rw [hsplit]
  omega

lemma nextRemainingIndices_length_nodup {remaining : List ℕ} {idx1 idx2 : ℕ}
    (h : remaining.Nodup) (h1 : idx1 ∈ remaining) (h2 : idx2 ∈ remaining)
    (hne : idx1 ≠ idx2) :
    (nextRemainingIndices remaining idx1 idx2).length + 2 = remaining.length := by
  unfold nextRemainingIndices
  rw [length_sortLe,
    List.dedup_eq_self.mpr (h.filter (fun r => decide (r ≠ idx1 ∧ r ≠ idx2)))]
  exact length_filter_ne_two h h1 h2 hne

lemma mem_keepOthers {units : List UnitGroup} {idx1 idx2 : ℕ} {u : UnitGroup}
    (hu : u ∈ keepOthers units idx1 idx2) : u ∈ units := by
  unfold keepOthers at hu
  rcases List.mem_map.mp hu with ⟨p, hp, hpu⟩
  have hpe := List.mem_of_mem_filter hp
  have := List.mem_enum_iff_getElem?.mp hpe
  rw [← hpu]
  exact List.getElem?_mem this

/-! ### Characterization of the branches explored by the double loop -/

/-- Everything a branch produced by the double loop of `find_best_path`
can look like: a combine or a battle between two units indexed by two
remaining original indices. -/
def CandShape (units : List UnitGroup) (remaining : List ℕ) (c : Cand) : Prop :=
  ∃ idx1 idx2 u1 u2,
    units[idx1]? = some u1 ∧ units[idx2]? = some u2 ∧
    idx1 ∈ remaining ∧ idx2 ∈ remaining ∧
    (remaining.Nodup → idx1 ≠ idx2) ∧
    c.nextRemaining = nextRemainingIndices remaining idx1 idx2 ∧
    ((∃ nu, u1.team = u2.team ∧ combine_units u1 u2 = some nu ∧
        c.op = Op.combineOp u1 u2 nu ∧
        c.nextUnits = keepOthers units idx1 idx2 ++ [nu]) ∨
     (∃ r1 r2, u1.team ≠ u2.team ∧
        (r1, r2) = calculate_battle_outcome u1.type u1.amount u2.type u2.amount ∧
        c.op = Op.battleOp u1 u2 r1 r2 ∧
        c.nextUnits = keepOthers units idx1 idx2
          ++ (if 0 < r1 then [⟨u1.type, r1, u1.team⟩] else [])
          ++ (if 0 < r2 then [⟨u2.type, r2, u2.team⟩] else [])))

lemma mem_gatherCands {α : Type} {f : α → Except Err (List Cand)} :
    ∀ {l : List α} {cs : List Cand} {c : Cand},
      gatherCands f l = Except.ok cs → c ∈ cs →
      ∃ x, x ∈ l ∧ ∃ ys, f x = Except.ok ys ∧ c ∈ ys := by
  intro l
  induction l with
  | nil =>
    intro cs c h hc
    unfold gatherCands at h
    cases h
    cases hc
  | cons x xs ih =>
    intro cs c h hc
    unfold gatherCands at h
    cases hfx : f x with
    | error e => rw [hfx] at h; cases h
    | ok ys =>
      rw [hfx] at h
      cases hrest : gatherCands f xs with
      | error e => rw [hrest] at h; cases h
      | ok rest =>
        rw [hrest] at h
        cases h
        rcases List.mem_append.mp hc with hmem | hmem
        · exact ⟨x, List.mem_cons_self x xs, ys, hfx, hmem⟩
        · rcases ih hrest hmem with ⟨x1, hx1, ys1, hys1, hc1⟩
          exact ⟨x1, List.mem_cons_of_mem x hx1, ys1, hys1, hc1⟩

lemma mem_combineCand {units : List UnitGroup} {remaining : List ℕ}
    {unit1 : UnitGroup} {idx1 idx2 : ℕ} {ys : List Cand} {c : Cand}
    (h : combineCand units remaining unit1 idx1 idx2 = Except.ok ys)
    (hc : c ∈ ys) :
    ∃ unit2 newUnit, units[idx2]? = some unit2 ∧ unit1.team = unit2.team ∧
      combine_units unit1 unit2 = some newUnit ∧
      c = ⟨Op.combineOp unit1 unit2 newUnit,
        keepOthers units idx1 idx2 ++ [newUnit],
        nextRemainingIndices remaining idx1 idx2⟩ := by
  unfold combineCand getUnit at h
  cases hu : units[idx2]? with
  | none => rw [hu] at h; cases h
  | some unit2 =>
    rw [hu] at h
    dsimp only at h
    by_cases ht : unit1.team = unit2.team
    · rw [if_pos ht] at h
      cases hcu : combine_units unit1 unit2 with
      | none => rw [hcu] at h; cases h
      | some newUnit =>
        rw [hcu] at h
        cases h
        rcases List.mem_singleton.mp hc with rfl
        exact ⟨unit2, newUnit, rfl, ht, hcu, rfl⟩
    · rw [if_neg ht] at h
      cases h
      cases hc

lemma mem_battleCand {units : List UnitGroup} {remaining : List ℕ}
    {unit1 : UnitGroup} {idx1 idx2 : ℕ} {ys : List Cand} {c : Cand}
    (h : battleCand units remaining unit1 idx1 idx2 = Except.ok ys)
    (hc : c ∈ ys) :
    ∃ unit2, units[idx2]? = some unit2 ∧ unit1.team ≠ unit2.team ∧
      c = ⟨Op.battleOp unit1 unit2
          (calculate_battle_outcome unit1.type unit1.amount unit2.type unit2.amount).1
          (calculate_battle_outcome unit1.type unit1.amount unit2.type unit2.amount).2,
        keepOthers units idx1 idx2
          ++ (if 0 < (calculate_battle_outcome unit1.type unit1.amount unit2.type unit2.amount).1
              then [⟨unit1.type, (calculate_battle_outcome unit1.type unit1.amount unit2.type unit2.amount).1, unit1.team⟩] else [])
          ++ (if 0 < (calculate_battle_outcome unit1.type unit1.amount unit2.type unit2.amount).2
              then [⟨unit2.type, (calculate_battle_outcome unit1.type unit1.amount unit2.type unit2.amount).2, unit2.team⟩] else []),
        nextRemainingIndices remaining idx1 idx2⟩ := by
  unfold battleCand getUnit at h
  cases hu : units[idx2]? with
  | none => rw [hu] at h; cases h
  | some unit2 =>
    rw [hu] at h
    dsimp only at h
    by_cases ht : unit1.team ≠ unit2.team
    · rw [if_pos ht] at h
      cases h
      rcases List.mem_singleton.mp hc with rfl
      exact ⟨unit2, rfl, ht, rfl⟩
    · rw [if_neg ht] at h
      cases h
      cases hc

lemma mem_candsAt {units : List UnitGroup} {remaining : List ℕ}
    {i idx1 : ℕ} {ys : List Cand} {c : Cand}
    (h : candsAt units remaining i idx1 = Except.ok ys) (hc : c ∈ ys)
    (hi : remaining[i]? = some idx1) :
    CandShape units remaining c := by
  unfold candsAt getUnit at h
  cases hu : units[idx1]? with
  | none => rw [hu] at h; cases h
  | some unit1 =>
    rw [hu] at h
    dsimp only at h
    cases hcombs : gatherCands (combineCand units remaining unit1 idx1)
        (remaining.drop (i + 1)) with
    | error e => rw [hcombs] at h; cases h
    | ok combs =>
      rw [hcombs] at h
      cases hbatts : gatherCands (battleCand units remaining unit1 idx1)
          (((remaining.enum).filter (fun q => q.1 ≠ i)).map Prod.snd) with
      | error e => rw [hbatts] at h; cases h
      | ok batts =>
        rw [hbatts] at h
        cases h
        have hidx1mem : idx1 ∈ remaining := List.getElem?_mem hi
        rcases List.mem_append.mp hc with hmem | hmem
        · -- combine branch: idx2 is drawn from positions after i
          rcases mem_gatherCands hcombs hmem with ⟨idx2, hx2, ys2, hys2, hc2⟩
          rcases mem_combineCand hys2 hc2 with ⟨unit2, newUnit, hu2, ht, hcu, rfl⟩
          have hidx2mem : idx2 ∈ remaining := List.mem_of_mem_drop hx2
          refine ⟨idx1, idx2, unit1, unit2, hu, hu2, hidx1mem, hidx2mem, ?_, rfl, ?_⟩
          · intro hnd
            rcases List.mem_iff_getElem?.mp hx2 with ⟨j, hj⟩
            rw [List.getElem?_drop] at hj
            exact nodup_getElem?_ne hnd hi hj (by omega)
          · exact Or.inl ⟨newUnit, ht, hcu, rfl, rfl⟩
        · -- battle branch: idx2 is drawn from positions other than i
          rcases mem_gatherCands hbatts hmem with ⟨idx2, hx2, ys2, hys2, hc2⟩
          rcases mem_battleCand hys2 hc2 with ⟨unit2, hu2, ht, rfl⟩
          rcases List.mem_map.mp hx2 with ⟨q, hq, hq2⟩
          have hqf := List.mem_filter.mp hq
          have hqe := List.mem_enum_iff_getElem?.mp hqf.1
          have hqi : q.1 ≠ i := by
            have := hqf.2
            simpa using this
          rw [hq2] at hqe
          have hidx2mem : idx2 ∈ remaining := List.getElem?_mem hqe
          refine ⟨idx1, idx2, unit1, unit2, hu, hu2, hidx1mem, hidx2mem, ?_, rfl, ?_⟩
          · intro hnd
            exact nodup_getElem?_ne hnd hi hqe (fun hcon => hqi hcon.symm)
          · exact Or.inr ⟨_, _, ht, rfl, rfl, rfl⟩

/-- Any branch explored by `find_best_path`'s double loop pairs two units
found at two remaining original indices. -/
lemma mem_candidates {units : List UnitGroup} {remaining : List ℕ}
    {cs : List Cand} {c : Cand}
    (h : candidates units remaining = Except.ok cs) (hc : c ∈ cs) :
    CandShape units remaining c := by
  unfold candidates at h
  rcases mem_gatherCands h hc with ⟨p, hp, ys, hys, hcy⟩
  exact mem_candsAt hys hcy (List.mem_enum_iff_getElem?.mp hp)

/-! ### The loops never produce the fuel-exhaustion marker themselves -/

lemma getUnit_ne_outOfFuel {units : List UnitGroup} {idx : ℕ} :
    getUnit units idx ≠ Except.error Err.outOfFuel := by
  unfold getUnit
  cases units[idx]? <;> simp

lemma combineCand_ne_outOfFuel {units : List UnitGroup} {remaining : List ℕ}
    {unit1 : UnitGroup} {idx1 idx2 : ℕ} :
    combineCand units remaining unit1 idx1 idx2 ≠ Except.error Err.outOfFuel := by
  unfold combineCand getUnit
  cases units[idx2]? with
  | none => simp
  | some u2 =>
    dsimp only
    by_cases ht : unit1.team = u2.team
    · rw [if_pos ht]
      cases combine_units unit1 u2 <;> simp
    · rw [if_neg ht]
      simp

lemma battleCand_ne_outOfFuel {units : List UnitGroup} {remaining : List ℕ}
    {unit1 : UnitGroup} {idx1 idx2 : ℕ} :
    battleCand units remaining unit1 idx1 idx2 ≠ Except.error Err.outOfFuel := by
  unfold battleCand getUnit
  cases units[idx2]? with
  | none => simp
  | some u2 =>
    dsimp only
    by_cases ht : unit1.team ≠ u2.team
    · rw [if_pos ht]
      simp
    · rw [if_neg ht]
      simp

lemma gatherCands_ne_outOfFuel {α : Type} {f : α → Except Err (List Cand)}
    (hf : ∀ x, f x ≠ Except.error Err.outOfFuel) :
    ∀ l : List α, gatherCands f l ≠ Except.error Err.outOfFuel := by
  intro l
  induction l with
  | nil => simp [gatherCands]
  | cons x xs ih =>
    unfold gatherCands
    cases hx : f x with
    | error e =>
      intro hcon
      injection hcon with h1
      exact hf x (hx.trans (by rw [h1]))
    | ok ys =>
      cases hxs : gatherCands f xs with
      | error e =>
        intro hcon
        injection hcon with h1
        exact ih (hxs.trans (by rw [h1]))
      | ok rest => simp

lemma candsAt_ne_outOfFuel {units : List UnitGroup} {remaining : List ℕ}
    {i idx1 : ℕ} :
    candsAt units remaining i idx1 ≠ Except.error Err.outOfFuel := by
  unfold candsAt getUnit
  cases units[idx1]? with
  | none => simp
  | some unit1 =>
    dsimp only
    cases hcombs : gatherCands (combineCand units remaining unit1 idx1)
        (remaining.drop (i + 1)) with
    | error e =>
      intro hcon
      injection hcon with h1
      exact gatherCands_ne_outOfFuel (fun x => combineCand_ne_outOfFuel) _
        (hcombs.trans (by rw [h1]))
    | ok combs =>
      cases hbatts : gatherCands (battleCand units remaining unit1 idx1)
          (((remaining.enum).filter (fun q => q.1 ≠ i)).map Prod.snd) with
      | error e =>
        intro hcon
        injection hcon with h1
        exact gatherCands_ne_outOfFuel (fun x => battleCand_ne_outOfFuel) _
          (hbatts.trans (by rw [h1]))
      | ok batts => simp

lemma candidates_ne_outOfFuel {units : List UnitGroup} {remaining : List ℕ} :
    candidates units remaining ≠ Except.error Err.outOfFuel :=
  gatherCands_ne_outOfFuel (fun _ => candsAt_ne_outOfFuel) remaining.enum

lemma goCands_ne_outOfFuel
    {recur : List UnitGroup → List ℕ → List Op → Memo →
      Except Err ((Adv × List Op) × Memo)} {path : List Op} :
    ∀ {cs : List Cand} {best : Adv × List Op} {memo : Memo},
      (∀ c ∈ cs, ∀ p m,
        recur c.nextUnits c.nextRemaining p m ≠ Except.error Err.outOfFuel) →
      goCands recur path cs best memo ≠ Except.error Err.outOfFuel := by
  intro cs
  induction cs with
  | nil =>
    intro best memo _
    simp [goCands]
  | cons c rest ih =>
    intro best memo H
    unfold goCands
    cases hr : recur c.nextUnits c.nextRemaining (path ++ [c.op]) memo with
    | error e =>
      intro hcon
      injection hcon with h1
      exact H c (List.mem_cons_self c rest) (path ++ [c.op]) memo
        (hr.trans (by rw [h1]))
    | ok v =>
      obtain ⟨⟨adv, p⟩, memo1⟩ := v
      exact ih (fun c1 hc1 => H c1 (List.mem_cons_of_mem c hc1))

/-- Every explored branch only removes indices from the remaining set. -/
lemma cand_shrink {units : List UnitGroup} {remaining : List ℕ}
    {cs : List Cand} {c : Cand}
    (h : candidates units remaining = Except.ok cs) (hc : c ∈ cs) :
    c.nextRemaining ⊆ remaining ∧
    c.nextRemaining.length < remaining.length ∧
    (remaining.Nodup → c.nextRemaining.length + 2 = remaining.length) := by
  rcases mem_candidates h hc with
    ⟨idx1, idx2, u1, u2, _, _, h1m, h2m, hnd, hnr, _⟩
  rw [hnr]
  exact ⟨fun x hx => mem_nextRemainingIndices hx,
    nextRemainingIndices_length_lt h1m,
    fun hn => nextRemainingIndices_length_nodup hn h1m h2m (hnd hn)⟩

/-- With fuel exceeding the remaining count the memoized search never
exhausts its fuel. -/
lemma find_m_no_fuel_exhaustion :
    ∀ (fuel : ℕ) (units : List UnitGroup) (remaining : List ℕ)
        (path : List Op) (memo : Memo),
      remaining.length < fuel →
      find_best_path fuel units remaining path memo
        ≠ Except.error Err.outOfFuel := by
  intro fuel
  induction fuel with
  | zero =>
    intro units remaining path memo hlen
    exact absurd hlen (by omega)
  | succ f ih =>
    intro units remaining path memo hlen
    show find_best_path (f + 1) units remaining path memo ≠ _
    unfold find_best_path
    dsimp only
    cases hm : memoLookup memo (stateKey units remaining) with
    | some v => simp
    | none =>
      dsimp only
      by_cases hrem : remaining = []
      · rw [if_pos hrem]
        simp
      · rw [if_neg hrem]
        cases hcs : candidates units remaining with
        | error e =>
          dsimp only
          intro hcon
          injection hcon with h1
          exact candidates_ne_outOfFuel (hcs.trans (by rw [h1]))
        | ok cs =>
          dsimp only
          have hgo : goCands (fun us rm p m => find_best_path f us rm p m)
              path cs (Adv.negInf, []) memo ≠ Except.error Err.outOfFuel := by
            apply goCands_ne_outOfFuel
            intro c hc p m
            have hlt := (cand_shrink hcs hc).2.1
            exact ih c.nextUnits c.nextRemaining p m (by omega)
          cases hgo2 : goCands (fun us rm p m => find_best_path f us rm p m)
              path cs (Adv.negInf, []) memo with
          | error e =>
            dsimp only
            intro hcon
            injection hcon with h1
            exact hgo (hgo2.trans (by rw [h1]))
          | ok v =>
            obtain ⟨⟨maxAdv, bestOps⟩, memo1⟩ := v
            dsimp only
            by_cases hfin : bestOps = [] ∧ remaining.length = units.length
            · rw [if_pos hfin]
              simp
            · rw [if_neg hfin]
              simp

/-- C9: every explored transition removes its two chosen indices from the
remaining set and adds none, the remaining set strictly shrinks (by
exactly two when the indices are duplicate-free), and consequently the
recursion terminates: with fuel exceeding the number of remaining
original indices the search never exhausts its fuel. -/
theorem search_shrinks_and_terminates :
    (∀ (units : List UnitGroup) (remaining : List ℕ) (cs : List Cand) (c : Cand),
      candidates units remaining = Except.ok cs → c ∈ cs →
        c.nextRemaining ⊆ remaining ∧
        c.nextRemaining.length < remaining.length ∧
        (remaining.Nodup → c.nextRemaining.length + 2 = remaining.length)) ∧
    (∀ (fuel : ℕ) (units : List UnitGroup) (remaining : List ℕ)
        (path : List Op) (memo : Memo),
      remaining.length < fuel →
      find_best_path fuel units remaining path memo
        ≠ Except.error Err.outOfFuel) :=
  ⟨fun _ _ _ _ h hc => cand_shrink h hc,
   fun fuel units remaining path memo h =>
    find_m_no_fuel_exhaustion fuel units remaining path memo h⟩

/-! ### Concrete instances used by claim theorems and witnesses -/

def uA : UnitGroup := ⟨"archers", 2, "blue"⟩

def uB : UnitGroup := ⟨"soldiers", 1, "blue"⟩

def uM : UnitGroup := ⟨"archers", 3, "blue"⟩

def candAB : Cand := ⟨Op.combineOp uA uB uM, [uM], []⟩

def sel0 : UnitGroup := ⟨"warriors", 5, "red"⟩

def sel1 : UnitGroup := ⟨"archers", 3, "blue"⟩

def sel2 : UnitGroup := ⟨"soldiers", 2, "red"⟩

def sel3 : UnitGroup := ⟨"archers", 4, "blue"⟩

def selM : UnitGroup := ⟨"archers", 7, "blue"⟩

/-- C8: combining same-team groups adds the amounts, keeps the shared
team, and takes the type of the larger input, the left argument winning
ties; a cross-team combine fails with the invalid-operation error. -/
theorem combine_units_correct :
    ∀ unit1 unit2 : UnitGroup,
      (unit1.team = unit2.team →
        ∃ g, combine_units unit1 unit2 = some g ∧
          g.amount = unit1.amount + unit2.amount ∧
          g.team = unit1.team ∧ g.team = unit2.team ∧
          (unit2.amount < unit1.amount → g.type = unit1.type) ∧
          (unit1.amount < unit2.amount → g.type = unit2.type) ∧
          (unit1.amount = unit2.amount → g.type = unit1.type)) ∧
      (unit1.team ≠ unit2.team → combine_units unit1 unit2 = none) := by
  intro unit1 unit2
  constructor
  · intro ht
    refine ⟨⟨if unit1.amount ≥ unit2.amount then unit1.type else unit2.type,
      unit1.amount + unit2.amount, unit1.team⟩, ?_, rfl, rfl, ht, ?_, ?_, ?_⟩
    · unfold combine_units
      rw [if_neg (by simp [ht])]
    · intro hlt
      exact if_pos (le_of_lt hlt)
    · intro hlt
      exact if_neg (by simp [hlt, not_le.mpr hlt])
    · intro heq
      exact if_pos (le_of_eq heq.symm)
  · intro ht
    unfold combine_units
    rw [if_pos ht]

theorem combine_units_correct_witness :
    combine_units ⟨"archers", 1, "blue"⟩ ⟨"soldiers", 2, "red"⟩ = none :=
  (combine_units_correct ⟨"archers", 1, "blue"⟩ ⟨"soldiers", 2, "red"⟩).2
    (by decide)

/-- C10: in an even-trade battle (equal types, a typeless side, or no
applicable kill rule in either direction) the two sides' results are each
side's amount minus the other's, so at most one side can end strictly
positive. -/
theorem even_trade_at_most_one_survivor :
    ∀ (t1 t2 : String) (a1 a2 : ℚ),
      (t1 = t2 ∨ t1 = "typeless" ∨ t2 = "typeless" ∨
        (ruleKills t1 t2 = none ∧ ruleKills t2 t1 = none)) →
      ¬(0 < (calculate_battle_outcome t1 a1 t2 a2).1 ∧
        0 < (calculate_battle_outcome t1 a1 t2 a2).2) := by
  intro t1 t2 a1 a2 hcase
  unfold calculate_battle_outcome
  by_cases h : t1 = t2 ∨ t1 = "typeless" ∨ t2 = "typeless"
  · rw [if_pos h]
    dsimp only
    rintro ⟨hp1, hp2⟩
    linarith
  · rw [if_neg h]
    rcases hcase with h1 | h1 | h1 | ⟨hn1, hn2⟩
    · exact absurd (Or.inl h1) h
    · exact absurd (Or.inr (Or.inl h1)) h
    · exact absurd (Or.inr (Or.inr h1)) h
    · rw [hn1, hn2]
      dsimp only
      rintro ⟨hp1, hp2⟩
      linarith

theorem even_trade_at_most_one_survivor_witness :
    ¬(0 < (calculate_battle_outcome "typeless" 5 "warriors" 5).1 ∧
      0 < (calculate_battle_outcome "typeless" 5 "warriors" 5).2) :=
  even_trade_at_most_one_survivor "typeless" "warriors" 5 5
    (Or.inr (Or.inl rfl))

/-- C2: the output of every explored interaction (the merged group of a
combine, or each surviving side of a battle) is placed in the unit list
handed to the recursive call, and such a derived group can be selected as
a participant of a later transition: concretely, combining the two blue
groups of `[sel0, sel1, sel2, sel3]` yields `selM`, and from the resulting
state the search explores a battle between `sel0` and `selM` itself. -/
theorem interaction_outputs_persist_and_selectable :
    (∀ (units : List UnitGroup) (remaining : List ℕ) (cs : List Cand) (c : Cand),
      candidates units remaining = Except.ok cs → c ∈ cs →
        (∀ u1 u2 nu, c.op = Op.combineOp u1 u2 nu → nu ∈ c.nextUnits) ∧
        (∀ u1 u2 r1 r2, c.op = Op.battleOp u1 u2 r1 r2 →
          (0 < r1 → (⟨u1.type, r1, u1.team⟩ : UnitGroup) ∈ c.nextUnits) ∧
          (0 < r2 → (⟨u2.type, r2, u2.team⟩ : UnitGroup) ∈ c.nextUnits))) ∧
    (∃ cs1 cs2,
      candidates [sel0, sel1, sel2, sel3] [0, 1, 2, 3] = Except.ok cs1 ∧
      (⟨Op.combineOp sel1 sel3 selM, [sel0, sel2, selM], [0, 2]⟩ : Cand) ∈ cs1 ∧
      candidates [sel0, sel2, selM] [0, 2] = Except.ok cs2 ∧
      (⟨Op.battleOp sel0 selM (-(11 : ℚ)/2) 7, [sel2, selM], []⟩ : Cand) ∈ cs2) := by
  constructor
  · intro units remaining cs c h hc
    rcases mem_candidates h hc with
      ⟨idx1, idx2, u1, u2, _, _, _, _, _, _, hshape⟩
    constructor
    · intro v1 v2 nu hop
      rcases hshape with ⟨nu1, _, _, hopc, hnext⟩ | ⟨s1, s2, _, _, hopc, _⟩
      · rw [hopc] at hop
        injection hop with e1 e2 e3
        subst e3
        rw [hnext]
        exact List.mem_append.mpr (Or.inr (List.mem_singleton_self _))
      · rw [hopc] at hop
        exact absurd hop (by simp)
    · intro v1 v2 r1 r2 hop
      rcases hshape with ⟨nu1, _, _, hopc, _⟩ | ⟨s1, s2, _, hs, hopc, hnext⟩
      · rw [hopc] at hop
        exact absurd hop (by simp)
      · rw [hopc] at hop
        injection hop with e1 e2 e3 e4
        subst e1
        subst e2
        subst e3
        subst e4
        rw [hnext]
        constructor
        · intro hr1
          refine List.mem_append.mpr (Or.inl (List.mem_append.mpr (Or.inr ?_)))
          rw [if_pos hr1]
          exact List.mem_singleton_self _
        · intro hr2
          refine List.mem_append.mpr (Or.inr ?_)
          rw [if_pos hr2]
          exact List.mem_singleton_self _
  · exact ⟨_, _, rfl, by decide, rfl, by decide⟩

theorem interaction_outputs_persist_and_selectable_witness :
    uM ∈ candAB.nextUnits :=
  (interaction_outputs_persist_and_selectable.1 [uA, uB] [0, 1]
    [candAB] candAB (by decide) (by decide)).1 uA uB uM rfl

/-- C5 (counterexample): with both amounts non-negative, the raw battle
resolver can return a negative component: a typeless battle of 0 against
5 leaves the first side at minus five. -/
theorem battle_outcome_negative_component :
    (0 : ℚ) ≤ 0 ∧ (0 : ℚ) ≤ 5 ∧
    (calculate_battle_outcome "typeless" 0 "typeless" 5).1 < 0 := by
  refine ⟨le_refl 0, by decide, by decide⟩

/-- C5 (amended): the raw resolver may go negative, but the search clamps:
whenever the current units all have non-negative amounts, every unit list
handed to a recursive call (kept units, a merged group, or the battle
survivors filtered by positivity) again has only non-negative amounts. -/
theorem search_states_preserve_nonneg :
    ∀ (units : List UnitGroup) (remaining : List ℕ) (cs : List Cand) (c : Cand),
      candidates units remaining = Except.ok cs → c ∈ cs →
      (∀ u ∈ units, 0 ≤ u.amount) → ∀ u ∈ c.nextUnits, 0 ≤ u.amount := by
  intro units remaining cs c h hc hnn u hu
  rcases mem_candidates h hc with
    ⟨idx1, idx2, u1, u2, hg1, hg2, _, _, _, _, hshape⟩
  have hu1 : 0 ≤ u1.amount := hnn u1 (List.getElem?_mem hg1)
  have hu2 : 0 ≤ u2.amount := hnn u2 (List.getElem?_mem hg2)
  rcases hshape with ⟨nu, _, hcu, _, hnext⟩ | ⟨r1, r2, _, _, _, hnext⟩
  · rw [hnext] at hu
    rcases List.mem_append.mp hu with hk | hn
    · exact hnn u (mem_keepOthers hk)
    · rcases List.mem_singleton.mp hn with rfl
      rw [combine_units_some_amount hcu]
      linarith
  · rw [hnext] at hu
    rcases List.mem_append.mp hu with hu1s | hs2
    · rcases List.mem_append.mp hu1s with hk | hs1
      · exact hnn u (mem_keepOthers hk)
      · by_cases h1 : 0 < r1
        · rw [if_pos h1] at hs1
          rcases List.mem_singleton.mp hs1 with rfl
          exact le_of_lt h1
        · rw [if_neg h1] at hs1
          cases hs1
    · by_cases h2 : 0 < r2
      · rw [if_pos h2] at hs2
        rcases List.mem_singleton.mp hs2 with rfl
        exact le_of_lt h2
      · rw [if_neg h2] at hs2
        cases hs2

theorem search_states_preserve_nonneg_witness : 0 ≤ uM.amount :=
  search_states_preserve_nonneg [uA, uB] [0, 1] [candAB] candAB
    (by decide) (by decide) (by decide) uM (by decide)

/-- C1 (code bug): on the repository's own `__main__` example input the
search raises `IndexError`: after a transition the rebuilt unit list is
shorter, but `remaining_indices` still holds original indices, which are
then used to index the shorter list. -/
theorem solve_unit_problem_example_raises_index_error :
    solve_unit_problem exampleMain = Except.error Err.indexError := by
  decide

/-- C3 (code bug): the terminal state with units `[12 warriors red,
11 archers blue]` and the single remaining index `(0,)` — reached from
scenario 1 after combining the blue groups — returns `-inf` and an empty
path instead of the advantage `-1` of the current groups, because the
fallback guard also demands `len(remaining) == len(current_units)`. -/
theorem terminal_state_returns_neg_infinity :
    (find_best_path 2 [⟨"warriors", 12, "red"⟩, ⟨"archers", 11, "blue"⟩]
        [0] [] []).map Prod.fst = Except.ok (Adv.negInf, []) ∧
    calculate_blue_advantage
      [⟨"warriors", 12, "red"⟩, ⟨"archers", 11, "blue"⟩] = -1 := by
  constructor
  · decide
  · decide

/-- C4 (code bug): on scenario 1 the engine returns the advantage `-1`
(negative) with an empty operation list: the combine-then-fight path is
never completed because every branch dead-ends in a `-inf` state. -/
theorem scenario_one_negative_advantage_empty_path :
    solve_unit_problem scenario1 = Except.ok (Adv.val (-1), []) ∧
    (-1 : ℚ) < 0 := by
  constructor
  · decide
  · decide

/-- C7 (counterexample): a group with a negative amount — malformed input
— is not rejected: the search runs and returns its advantage. -/
theorem negative_amount_not_rejected :
    (⟨"typeless", -5, "blue"⟩ : UnitGroup).amount < 0 ∧
    solve_unit_problem [⟨"typeless", -5, "blue"⟩]
      = Except.ok (Adv.val (-5), []) := by
  constructor
  · decide
  · decide

/-- C7 (amended): `solve_unit_problem` performs no validation at all; any
single-group input — whatever its amount or team label — runs the search
and returns that group's signed advantage with an empty path. -/
theorem single_group_runs_search :
    ∀ u : UnitGroup,
      solve_unit_problem [u]
        = Except.ok (Adv.val (calculate_blue_advantage [u]), []) :=
  fun _ => rfl

/-! ### Canonical data determined by a memoization key -/

/-- The `(type, amount, team)` triples of a unit list, as used in keys. -/
def tripsOf (units : List UnitGroup) : List (String × ℚ × String) :=
  units.map (fun u => (u.type, u.amount, u.team))

/-- The blue advantage read off a triple list. -/
def advOfTrips (l : List (String × ℚ × String)) : ℚ :=
  ((l.filter (fun t => t.2.2 = "blue")).map (fun t => t.2.1)).sum
  - ((l.filter (fun t => t.2.2 = "red")).map (fun t => t.2.1)).sum

lemma insertLe_perm {α : Type} {le : α → α → Bool} {a : α} :
    ∀ {l : List α}, (insertLe le a l).Perm (a :: l) := by
  intro l
  induction l with
  | nil => exact List.Perm.refl _
  | cons b bs ih =>
    unfold insertLe
    by_cases h : le a b = true
    · rw [if_pos h]
    · rw [if_neg h]
      exact (ih.cons b).trans (List.Perm.swap a b bs)

lemma sortLe_perm {α : Type} {le : α → α → Bool} :
    ∀ {l : List α}, (sortLe le l).Perm l := by
  intro l
  induction l with
  | nil => exact List.Perm.refl _
  | cons b bs ih =>
    unfold sortLe
    exact insertLe_perm.trans (ih.cons b)

lemma advOfTrips_perm {l1 l2 : List (String × ℚ × String)}
    (h : l1.Perm l2) : advOfTrips l1 = advOfTrips l2 := by
  unfold advOfTrips
  rw [((h.filter (fun t => decide (t.2.2 = "blue"))).map
      (fun t => t.2.1)).sum_eq,
    ((h.filter (fun t => decide (t.2.2 = "red"))).map (fun t => t.2.1)).sum_eq]

lemma calculate_blue_advantage_eq_advOfTrips (units : List UnitGroup) :
    calculate_blue_advantage units = advOfTrips (tripsOf units) := by
  unfold calculate_blue_advantage advOfTrips tripsOf
  rw [List.filter_map, List.filter_map, List.map_map, List.map_map]
  rfl

lemma stateKey_fst_length (units : List UnitGroup) (rem : List ℕ) :
    (stateKey units rem).1.length = units.length := by
  unfold stateKey
  rw [length_sortLe]
  exact List.length_map _ _

lemma stateKey_eq_length {u1 u2 : List UnitGroup} {r1 r2 : List ℕ}
    (h : stateKey u1 r1 = stateKey u2 r2) : u1.length = u2.length := by
  have h1 := congrArg (fun k => k.1.length) h
  simpa [stateKey_fst_length] using h1

lemma stateKey_eq_rem {u1 u2 : List UnitGroup} {r1 r2 : List ℕ}
    (h : stateKey u1 r1 = stateKey u2 r2) : r1 = r2 := by
  have := congrArg Prod.snd h
  simpa [stateKey] using this

lemma stateKey_eq_adv {u1 u2 : List UnitGroup} {r1 r2 : List ℕ}
    (h : stateKey u1 r1 = stateKey u2 r2) :
    calculate_blue_advantage u1 = calculate_blue_advantage u2 := by
  have h1 : sortLe tripLe (tripsOf u1) = sortLe tripLe (tripsOf u2) :=
    congrArg Prod.fst h
  have hperm : (tripsOf u1).Perm (tripsOf u2) := by
    have p1 : (sortLe tripLe (tripsOf u1)).Perm (tripsOf u1) := sortLe_perm
    have p2 : (sortLe tripLe (tripsOf u2)).Perm (tripsOf u2) := sortLe_perm
    rw [← h1] at p2
    exact p1.symm.trans p2
  rw [calculate_blue_advantage_eq_advOfTrips,
    calculate_blue_advantage_eq_advOfTrips]
  exact advOfTrips_perm hperm

/-! ### Terminal states: remaining lists of length at most one -/

/-- A remaining-index list that allows no further pairing. -/
def TermRem (rem : List ℕ) : Prop := rem = [] ∨ ∃ c, rem = [c]

/-- The outcome of one search call on a terminal state, shared by the
memoized and the non-memoized search. -/
def termResult (units : List UnitGroup) (rem : List ℕ) (path : List Op) :
    Except Err (Adv × List Op) :=
  match rem with
  | [] => Except.ok (Adv.val (calculate_blue_advantage units), path)
  | [c] =>
    if c < units.length then
      (if 1 = units.length then
        Except.ok (Adv.val (calculate_blue_advantage units), path)
      else Except.ok (Adv.negInf, []))
    else Except.error Err.indexError
  | _ => Except.error Err.indexError

lemma candidates_singleton (units : List UnitGroup) (c : ℕ) :
    candidates units [c]
      = match getUnit units c with
        | Except.ok _ => Except.ok ([] : List Cand)
        | Except.error e => Except.error e := by
  show (match candsAt units [c] 0 c with
    | Except.error e => Except.error e
    | Except.ok cs =>
      match (Except.ok [] : Except Err (List Cand)) with
      | Except.error e => Except.error e
      | Except.ok rest => Except.ok (cs ++ rest)) = _
  unfold candsAt
  cases hg : getUnit units c with
  | error e => rfl
  | ok u => rfl

lemma getUnit_lt {units : List UnitGroup} {c : ℕ} {u : UnitGroup}
    (h : getUnit units c = Except.ok u) : c < units.length := by
  unfold getUnit at h
  cases hu : units[c]? with
  | none => rw [hu] at h; cases h
  | some u1 =>
    rcases List.getElem?_eq_some.mp hu with ⟨hlt, _⟩
    exact hlt

lemma getUnit_oob {units : List UnitGroup} {c : ℕ} {e : Err}
    (h : getUnit units c = Except.error e) :
    ¬ c < units.length ∧ e = Err.indexError := by
  unfold getUnit at h
  cases hu : units[c]? with
  | none =>
    rw [hu] at h
    refine ⟨fun hlt => ?_, by cases h; rfl⟩
    rw [List.getElem?_eq_getElem hlt] at hu
    cases hu
  | some u1 => rw [hu] at h; cases h

lemma find_nm_term {f : ℕ} {units : List UnitGroup} {rem : List ℕ}
    {path : List Op} (h : TermRem rem) :
    find_best_path_nm (f + 1) units rem path = termResult units rem path := by
  rcases h with rfl | ⟨c, rfl⟩
  · rfl
  · show find_best_path_nm (f + 1) units [c] path = _
    unfold find_best_path_nm
    rw [if_neg (by simp), candidates_singleton]
    cases hg : getUnit units c with
    | error e =>
      rcases getUnit_oob hg with ⟨hc, rfl⟩
      unfold termResult
      dsimp only
      rw [if_neg hc]
    | ok u =>
      have hc : c < units.length := getUnit_lt hg
      unfold termResult goCandsNm
      dsimp only
      rw [if_pos hc]
      by_cases h1 : 1 = units.length
      · rw [if_pos (⟨rfl, by simpa using h1⟩ :
          ([] : List Op) = [] ∧ [c].length = units.length), if_pos h1]
      · rw [if_neg (fun hand => h1 (by simpa using hand.2)), if_neg h1]

lemma find_m_term {f : ℕ} {units : List UnitGroup} {rem : List ℕ}
    {path : List Op} {memo : Memo} (h : TermRem rem) :
    find_best_path (f + 1) units rem path memo
      = match memoLookup memo (stateKey units rem) with
        | some v => Except.ok (v, memo)
        | none =>
          match termResult units rem path with
          | Except.ok r =>
            Except.ok (r, memoInsert memo (stateKey units rem) r)
          | Except.error e => Except.error e := by
  show (match memoLookup memo (stateKey units rem) with
    | some v => Except.ok (v, memo)
    | none => _) = _
  cases memoLookup memo (stateKey units rem) with
  | some v => rfl
  | none =>
    rcases h with rfl | ⟨c, rfl⟩
    · rfl
    · show (if ([c] : List ℕ) = [] then _ else _) = _
      rw [if_neg (by simp), candidates_singleton]
      cases hg : getUnit units c with
      | error e =>
        rcases getUnit_oob hg with ⟨hc, rfl⟩
        unfold termResult
        dsimp only
        rw [if_neg hc]
      | ok u =>
        have hc : c < units.length := getUnit_lt hg
        unfold termResult goCands
        dsimp only
        rw [if_pos hc]
        by_cases h1 : 1 = units.length
        · rw [if_pos (⟨rfl, by simpa using h1⟩ :
            ([] : List Op) = [] ∧ [c].length = units.length), if_pos h1]
        · rw [if_neg (fun hand => h1 (by simpa using hand.2)), if_neg h1]

lemma termResult_key_eq {us cu : List UnitGroup} (rm : List ℕ)
    (p p1 : List Op) (hlen : us.length = cu.length)
    (hadv : calculate_blue_advantage us = calculate_blue_advantage cu) :
    (termResult us rm p).map Prod.fst = (termResult cu rm p1).map Prod.fst := by
  unfold termResult
  match rm with
  | [] => simp [Except.map, hadv]
  | [c] =>
    rw [hlen, hadv]
    by_cases hc : c < cu.length
    · by_cases h1 : 1 = cu.length <;> simp [hc, h1, Except.map]
    · simp [hc, Except.map]
  | x :: y :: t => rfl

lemma Adv_gt_irrefl (a : Adv) : Adv.gt a a = false := by
  cases a with
  | negInf => rfl
  | val q => simp [Adv.gt]

lemma Adv_gt_false_trans {x b r : Adv} (h1 : Adv.gt x b = false)
    (h2 : Adv.gt r b = true) : Adv.gt x r = false := by
  cases x with
  | negInf => rfl
  | val xq =>
    cases b with
    | negInf => simp [Adv.gt] at h1
    | val bq =>
      cases r with
      | negInf => simp [Adv.gt] at h2
      | val rq =>
        simp [Adv.gt] at h1 h2 ⊢
        linarith

lemma memoLookup_mem {memo : Memo}
    {k : (List (String × ℚ × String)) × List ℕ} {v : Adv × List Op}
    (h : memoLookup memo k = some v) : (k, v) ∈ memo := by
  induction memo with
  | nil => cases h
  | cons e rest ih =>
    obtain ⟨k1, v1⟩ := e
    unfold memoLookup at h
    by_cases hk : k1 = k
    · rw [if_pos hk] at h
      injection h with h
      subst hk
      subst h
      exact List.mem_cons_self _ _
    · rw [if_neg hk] at h
      exact List.mem_cons_of_mem _ (ih h)

/-- Forgets the threaded memo of a memoized search result. -/
def dropMemo (x : Except Err ((Adv × List Op) × Memo)) :
    Except Err (Adv × List Op) :=
  match x with
  | Except.ok (r, _) => Except.ok r
  | Except.error e => Except.error e

/-- Invariant tying every memo entry to a terminal state it was computed
from, with an advantage already dominated by the running best. -/
def MemoInv (memo : Memo) (best : Adv × List Op) : Prop :=
  ∀ e ∈ memo, ∃ us rm p, TermRem rm ∧ e.1 = stateKey us rm ∧
    termResult us rm p = Except.ok e.2 ∧ Adv.gt e.2.1 best.1 = false

lemma goCands_term_eq {g : ℕ} {path : List Op} :
    ∀ (cs : List Cand) (best : Adv × List Op) (memo : Memo),
      (∀ c ∈ cs, TermRem c.nextRemaining) →
      MemoInv memo best →
      dropMemo (goCands (fun us rm p m => find_best_path (g + 1) us rm p m)
        path cs best memo)
      = goCandsNm (fun us rm p => find_best_path_nm (g + 1) us rm p)
          path cs best := by
  intro cs
  induction cs with
  | nil =>
    intro best memo _ _
    rfl
  | cons c rest ih =>
    intro best memo hterm hinv
    have htc := hterm c (List.mem_cons_self c rest)
    have htr : ∀ c1 ∈ rest, TermRem c1.nextRemaining :=
      fun c1 hc1 => hterm c1 (List.mem_cons_of_mem c hc1)
    unfold goCands goCandsNm
    rw [find_m_term htc, find_nm_term htc]
    cases hl : memoLookup memo (stateKey c.nextUnits c.nextRemaining) with
    | some v =>
      obtain ⟨us, rm, p, hterm2, hkey, hres, hgt⟩ :=
        hinv _ (memoLookup_mem hl)
      have hkey2 : stateKey us rm = stateKey c.nextUnits c.nextRemaining :=
        hkey.symm
      have hrm : rm = c.nextRemaining := stateKey_eq_rem hkey2
      subst hrm
      have hlen := stateKey_eq_length hkey2
      have hadv := stateKey_eq_adv hkey2
      have hmapped :=
        termResult_key_eq c.nextRemaining p (path ++ [c.op]) hlen hadv
      rw [hres] at hmapped
      cases ht2 : termResult c.nextUnits c.nextRemaining (path ++ [c.op]) with
      | error e2 =>
        rw [ht2] at hmapped
        simp [Except.map] at hmapped
      | ok r =>
        rw [ht2] at hmapped
        simp only [Except.map] at hmapped
        have hradv : v.1 = r.1 := by
          injection hmapped with h
        dsimp only
        rw [show Adv.gt v.1 best.1 = false from hgt,
          show Adv.gt r.1 best.1 = false from hradv ▸ hgt]
        exact ih best memo htr hinv
    | none =>
      cases ht2 : termResult c.nextUnits c.nextRemaining (path ++ [c.op]) with
      | error e2 => rfl
      | ok r =>
        dsimp only
        cases hb : Adv.gt r.1 best.1 with
        | false =>
          rw [if_neg Bool.false_ne_true]
          have hinv2 : MemoInv
              (memoInsert memo (stateKey c.nextUnits c.nextRemaining) r)
              best := by
            intro e he
            rcases List.mem_cons.mp he with rfl | he1
            · exact ⟨c.nextUnits, c.nextRemaining, path ++ [c.op],
                htc, rfl, ht2, hb⟩
            · exact hinv e he1
          exact ih best _ htr hinv2
        | true =>
          rw [if_pos rfl]
          have hinv2 : MemoInv
              (memoInsert memo (stateKey c.nextUnits c.nextRemaining) r)
              r := by
            intro e he
            rcases List.mem_cons.mp he with rfl | he1
            · exact ⟨c.nextUnits, c.nextRemaining, path ++ [c.op],
                htc, rfl, ht2, Adv_gt_irrefl r.1⟩
            · obtain ⟨us, rm, p, h1, h2, h3, h4⟩ := hinv e he1
              exact ⟨us, rm, p, h1, h2, h3, Adv_gt_false_trans h4 hb⟩
          exact ih r _ htr hinv2

lemma terminal_of_mem_cands {units : List UnitGroup} {remaining : List ℕ}
    {cs : List Cand} {c : Cand} (hnd : remaining.Nodup)
    (hle : remaining.length ≤ 3)
    (h : candidates units remaining = Except.ok cs) (hc : c ∈ cs) :
    TermRem c.nextRemaining := by
  rcases mem_candidates h hc with
    ⟨idx1, idx2, u1, u2, _, _, h1m, h2m, hne, hnr, _⟩
  rw [hnr]
  have h2 := nextRemainingIndices_length_nodup hnd h1m h2m (hne hnd)
  cases hL : (nextRemainingIndices remaining idx1 idx2).length with
  | zero => exact Or.inl (List.length_eq_zero.mp hL)
  | succ n =>
    have hn : n = 0 := by omega
    subst hn
    rcases List.length_eq_one.mp hL with ⟨a, ha⟩
    exact Or.inr ⟨a, ha⟩

lemma top_eq {g : ℕ} {units : List UnitGroup} {remaining : List ℕ}
    {path : List Op} (hne : remaining ≠ []) (hnd : remaining.Nodup)
    (hle : remaining.length ≤ 3) :
    dropMemo (find_best_path (g + 1 + 1) units remaining path [])
      = find_best_path_nm (g + 1 + 1) units remaining path := by
  show dropMemo (if remaining = [] then
      Except.ok ((Adv.val (calculate_blue_advantage units), path),
        memoInsert [] (stateKey units remaining)
          (Adv.val (calculate_blue_advantage units), path))
    else match candidates units remaining with
      | Except.error e => Except.error e
      | Except.ok cs =>
        match goCands (fun us rm p m => find_best_path (g + 1) us rm p m)
            path cs (Adv.negInf, []) [] with
        | Except.error e => Except.error e
        | Except.ok ((maxAdv, bestOps), memo1) =>
          if bestOps = [] ∧ remaining.length = units.length then
            Except.ok ((Adv.val (calculate_blue_advantage units), path),
              memoInsert memo1 (stateKey units remaining)
                (Adv.val (calculate_blue_advantage units), path))
          else Except.ok ((maxAdv, bestOps),
            memoInsert memo1 (stateKey units remaining) (maxAdv, bestOps)))
    = (if remaining = [] then
        Except.ok (Adv.val (calculate_blue_advantage units), path)
      else match candidates units remaining with
        | Except.error e => Except.error e
        | Except.ok cs =>
          match goCandsNm (fun us rm p => find_best_path_nm (g + 1) us rm p)
              path cs (Adv.negInf, []) with
          | Except.error e => Except.error e
          | Except.ok (maxAdv, bestOps) =>
            if bestOps = [] ∧ remaining.length = units.length then
              Except.ok (Adv.val (calculate_blue_advantage units), path)
            else Except.ok (maxAdv, bestOps))
  rw [if_neg hne, if_neg hne]
  cases hcs : candidates units remaining with
  | error e => rfl
  | ok cs =>
    dsimp only
    have hterm : ∀ c ∈ cs, TermRem c.nextRemaining :=
      fun c hc => terminal_of_mem_cands hnd hle hcs hc
    have hinv0 : MemoInv [] (Adv.negInf, []) :=
      fun e he => absurd he (List.not_mem_nil e)
    have heq := @goCands_term_eq g path cs (Adv.negInf, []) [] hterm hinv0
    cases hgo : goCands (fun us rm p m => find_best_path (g + 1) us rm p m)
        path cs (Adv.negInf, []) [] with
    | error e =>
      rw [← heq, hgo]
      rfl
    | ok v =>
      obtain ⟨⟨maxAdv, bestOps⟩, memo1⟩ := v
      rw [← heq, hgo]
      show dropMemo (if bestOps = [] ∧ remaining.length = units.length then
          Except.ok ((Adv.val (calculate_blue_advantage units), path),
            memoInsert memo1 (stateKey units remaining)
              (Adv.val (calculate_blue_advantage units), path))
        else Except.ok ((maxAdv, bestOps),
          memoInsert memo1 (stateKey units remaining) (maxAdv, bestOps)))
        = (if bestOps = [] ∧ remaining.length = units.length then
            Except.ok (Adv.val (calculate_blue_advantage units), path)
          else Except.ok (maxAdv, bestOps))
      by_cases hfin : bestOps = [] ∧ remaining.length = units.length
      · rw [if_pos hfin, if_pos hfin]
        rfl
      · rw [if_neg hfin, if_neg hfin]
        rfl

/-! ### Every raised exception is an IndexError -/

lemma combine_units_of_team_eq {u1 u2 : UnitGroup} (h : u1.team = u2.team) :
    combine_units u1 u2
      = some ⟨if u1.amount ≥ u2.amount then u1.type else u2.type,
          u1.amount + u2.amount, u1.team⟩ := by
  unfold combine_units
  rw [if_neg (by simp [h])]

lemma combineCand_error {units : List UnitGroup} {remaining : List ℕ}
    {unit1 : UnitGroup} {idx1 idx2 : ℕ} {e : Err}
    (h : combineCand units remaining unit1 idx1 idx2 = Except.error e) :
    e = Err.indexError := by
  unfold combineCand at h
  cases hg : getUnit units idx2 with
  | error e1 =>
    rw [hg] at h
    cases h
    exact (getUnit_oob hg).2
  | ok u2 =>
    rw [hg] at h
    dsimp only at h
    by_cases ht : unit1.team = u2.team
    · rw [if_pos ht, combine_units_of_team_eq ht] at h
      cases h
    · rw [if_neg ht] at h
      cases h

lemma battleCand_error {units : List UnitGroup} {remaining : List ℕ}
    {unit1 : UnitGroup} {idx1 idx2 : ℕ} {e : Err}
    (h : battleCand units remaining unit1 idx1 idx2 = Except.error e) :
    e = Err.indexError := by
  unfold battleCand at h
  cases hg : getUnit units idx2 with
  | error e1 =>
    rw [hg] at h
    cases h
    exact (getUnit_oob hg).2
  | ok u2 =>
    rw [hg] at h
    dsimp only at h
    by_cases ht : unit1.team ≠ u2.team
    · rw [if_pos ht] at h
      cases h
    · rw [if_neg ht] at h
      cases h

lemma gatherCands_error {α : Type} {f : α → Except Err (List Cand)} :
    ∀ {l : List α} {e : Err}, gatherCands f l = Except.error e →
      ∃ x ∈ l, f x = Except.error e := by
  intro l
  induction l with
  | nil =>
    intro e h
    cases h
  | cons x xs ih =>
    intro e h
    unfold gatherCands at h
    cases hx : f x with
    | error e1 =>
      rw [hx] at h
      cases h
      exact ⟨x, List.mem_cons_self x xs, hx⟩
    | ok ys =>
      rw [hx] at h
      cases hxs : gatherCands f xs with
      | error e1 =>
        rw [hxs] at h
        cases h
        rcases ih hxs with ⟨x1, hx1, hfx1⟩
        exact ⟨x1, List.mem_cons_of_mem x hx1, hfx1⟩
      | ok rest =>
        rw [hxs] at h
        cases h

lemma candsAt_error {units : List UnitGroup} {remaining : List ℕ}
    {i idx1 : ℕ} {e : Err}
    (h : candsAt units remaining i idx1 = Except.error e) :
    e = Err.indexError := by
  unfold candsAt at h
  cases hg : getUnit units idx1 with
  | error e1 =>
    rw [hg] at h
    cases h
    exact (getUnit_oob hg).2
  | ok u1 =>
    rw [hg] at h
    dsimp only at h
    cases hcombs : gatherCands (combineCand units remaining u1 idx1)
        (remaining.drop (i + 1)) with
    | error e1 =>
      rw [hcombs] at h
      cases h
      rcases gatherCands_error hcombs with ⟨x, _, hfx⟩
      exact combineCand_error hfx
    | ok combs =>
      rw [hcombs] at h
      cases hbatts : gatherCands (battleCand units remaining u1 idx1)
          (((remaining.enum).filter (fun q => q.1 ≠ i)).map Prod.snd) with
      | error e1 =>
        rw [hbatts] at h
        cases h
        rcases gatherCands_error hbatts with ⟨x, _, hfx⟩
        exact battleCand_error hfx
      | ok batts =>
        rw [hbatts] at h
        cases h

lemma candidates_error {units : List UnitGroup} {remaining : List ℕ} {e : Err}
    (h : candidates units remaining = Except.error e) : e = Err.indexError := by
  unfold candidates at h
  rcases gatherCands_error h with ⟨p, _, hfp⟩
  exact candsAt_error hfp

lemma goCands_error
    {recur : List UnitGroup → List ℕ → List Op → Memo →
      Except Err ((Adv × List Op) × Memo)} {path : List Op} :
    ∀ {cs : List Cand} {best : Adv × List Op} {memo : Memo} {e : Err},
      goCands recur path cs best memo = Except.error e →
      ∃ c ∈ cs, ∃ p m, recur c.nextUnits c.nextRemaining p m
        = Except.error e := by
  intro cs
  induction cs with
  | nil =>
    intro best memo e h
    cases h
  | cons c rest ih =>
    intro best memo e h
    unfold goCands at h
    cases hr : recur c.nextUnits c.nextRemaining (path ++ [c.op]) memo with
    | error e1 =>
      rw [hr] at h
      cases h
      exact ⟨c, List.mem_cons_self c rest, _, _, hr⟩
    | ok v =>
      rw [hr] at h
      obtain ⟨⟨adv, p⟩, memo1⟩ := v
      rcases ih h with ⟨c1, hc1, p1, m1, hr1⟩
      exact ⟨c1, List.mem_cons_of_mem c hc1, p1, m1, hr1⟩

lemma goCandsNm_error
    {recur : List UnitGroup → List ℕ → List Op → Except Err (Adv × List Op)}
    {path : List Op} :
    ∀ {cs : List Cand} {best : Adv × List Op} {e : Err},
      goCandsNm recur path cs best = Except.error e →
      ∃ c ∈ cs, ∃ p, recur c.nextUnits c.nextRemaining p = Except.error e := by
  intro cs
  induction cs with
  | nil =>
    intro best e h
    cases h
  | cons c rest ih =>
    intro best e h
    unfold goCandsNm at h
    cases hr : recur c.nextUnits c.nextRemaining (path ++ [c.op]) with
    | error e1 =>
      rw [hr] at h
      cases h
      exact ⟨c, List.mem_cons_self c rest, _, hr⟩
    | ok v =>
      rw [hr] at h
      obtain ⟨adv, p⟩ := v
      rcases ih h with ⟨c1, hc1, p1, hr1⟩
      exact ⟨c1, List.mem_cons_of_mem c hc1, p1, hr1⟩

/-- A memoized search error is an IndexError or fuel exhaustion. -/
lemma find_m_error :
    ∀ (fuel : ℕ) {units : List UnitGroup} {remaining : List ℕ}
      {path : List Op} {memo : Memo} {e : Err},
      find_best_path fuel units remaining path memo = Except.error e →
      e = Err.indexError ∨ e = Err.outOfFuel := by
  intro fuel
  induction fuel with
  | zero =>
    intro units remaining path memo e h
    cases h
    exact Or.inr rfl
  | succ f ih =>
    intro units remaining path memo e h
    unfold find_best_path at h
    dsimp only at h
    cases hm : memoLookup memo (stateKey units remaining) with
    | some v =>
      rw [hm] at h
      cases h
    | none =>
      rw [hm] at h
      dsimp only at h
      by_cases hrem : remaining = []
      · rw [if_pos hrem] at h
        cases h
      · rw [if_neg hrem] at h
        cases hcs : candidates units remaining with
        | error e1 =>
          rw [hcs] at h
          cases h
          exact Or.inl (candidates_error hcs)
        | ok cs =>
          rw [hcs] at h
          dsimp only at h
          cases hgo : goCands (fun us rm p m => find_best_path f us rm p m)
              path cs (Adv.negInf, []) memo with
          | error e1 =>
            rw [hgo] at h
            cases h
            rcases goCands_error hgo with ⟨c, _, p1, m1, hr⟩
            exact ih hr
          | ok v =>
            rw [hgo] at h
            obtain ⟨⟨maxAdv, bestOps⟩, memo1⟩ := v
            dsimp only at h
            by_cases hfin : bestOps = [] ∧ remaining.length = units.length
            · rw [if_pos hfin] at h
              cases h
            · rw [if_neg hfin] at h
              cases h

/-- A brute-force search error is an IndexError or fuel exhaustion. -/
lemma find_nm_error :
    ∀ (fuel : ℕ) {units : List UnitGroup} {remaining : List ℕ}
      {path : List Op} {e : Err},
      find_best_path_nm fuel units remaining path = Except.error e →
      e = Err.indexError ∨ e = Err.outOfFuel := by
  intro fuel
  induction fuel with
  | zero =>
    intro units remaining path e h
    cases h
    exact Or.inr rfl
  | succ f ih =>
    intro units remaining path e h
    unfold find_best_path_nm at h
    by_cases hrem : remaining = []
    · rw [if_pos hrem] at h
      cases h
    · rw [if_neg hrem] at h
      cases hcs : candidates units remaining with
      | error e1 =>
        rw [hcs] at h
        cases h
        exact Or.inl (candidates_error hcs)
      | ok cs =>
        rw [hcs] at h
        dsimp only at h
        cases hgo : goCandsNm (fun us rm p => find_best_path_nm f us rm p)
            path cs (Adv.negInf, []) with
        | error e1 =>
          rw [hgo] at h
          cases h
          rcases goCandsNm_error hgo with ⟨c, _, p1, hr⟩
          exact ih hr
        | ok v =>
          rw [hgo] at h
          obtain ⟨maxAdv, bestOps⟩ := v
          dsimp only at h
          by_cases hfin : bestOps = [] ∧ remaining.length = units.length
          · rw [if_pos hfin] at h
            cases h
          · rw [if_neg hfin] at h
            cases h

/-- With fuel exceeding the remaining count the brute-force search never
exhausts its fuel. -/
lemma find_nm_no_fuel_exhaustion :
    ∀ (fuel : ℕ) (units : List UnitGroup) (remaining : List ℕ)
        (path : List Op),
      remaining.length < fuel →
      find_best_path_nm fuel units remaining path
        ≠ Except.error Err.outOfFuel := by
  intro fuel
  induction fuel with
  | zero =>
    intro units remaining path hlen
    exact absurd hlen (by omega)
  | succ f ih =>
    intro units remaining path hlen hcon
    rcases find_nm_error (f + 1) hcon with h1 | h1
    · cases h1
    · unfold find_best_path_nm at hcon
      by_cases hrem : remaining = []
      · rw [if_pos hrem] at hcon
        cases hcon
      · rw [if_neg hrem] at hcon
        cases hcs : candidates units remaining with
        | error e1 =>
          rw [hcs] at hcon
          cases hcon
          exact absurd (candidates_error hcs) (by simp)
        | ok cs =>
          rw [hcs] at hcon
          dsimp only at hcon
          cases hgo : goCandsNm (fun us rm p => find_best_path_nm f us rm p)
              path cs (Adv.negInf, []) with
          | error e1 =>
            rw [hgo] at hcon
            cases hcon
            rcases goCandsNm_error hgo with ⟨c, hc, p1, hr⟩
            have hlt := (cand_shrink hcs hc).2.1
            exact ih c.nextUnits c.nextRemaining p1 (by omega) hr
          | ok v =>
            rw [hgo] at hcon
            obtain ⟨maxAdv, bestOps⟩ := v
            dsimp only at hcon
            by_cases hfin : bestOps = [] ∧ remaining.length = units.length
            · rw [if_pos hfin] at hcon
              cases hcon
            · rw [if_neg hfin] at hcon
              cases hcon

/-! ### A successful loop pass certifies that every remaining index is
in range, and the memo only ever stores such states -/

lemma gatherCands_ok_forall {α : Type} {f : α → Except Err (List Cand)} :
    ∀ {l : List α} {cs : List Cand}, gatherCands f l = Except.ok cs →
      ∀ x ∈ l, ∃ ys, f x = Except.ok ys := by
  intro l
  induction l with
  | nil =>
    intro cs _ x hx
    cases hx
  | cons y ys ih =>
    intro cs h x hx
    unfold gatherCands at h
    cases hy : f y with
    | error e =>
      rw [hy] at h
      cases h
    | ok zs =>
      rw [hy] at h
      cases hrest : gatherCands f ys with
      | error e =>
        rw [hrest] at h
        cases h
      | ok rest =>
        rcases List.mem_cons.mp hx with rfl | hx1
        · exact ⟨zs, hy⟩
        · exact ih hrest x hx1

lemma candsAt_ok_getUnit {units : List UnitGroup} {remaining : List ℕ}
    {i idx1 : ℕ} {zs : List Cand}
    (h : candsAt units remaining i idx1 = Except.ok zs) :
    ∃ u, getUnit units idx1 = Except.ok u := by
  unfold candsAt at h
  cases hg : getUnit units idx1 with
  | error e =>
    rw [hg] at h
    cases h
  | ok u => exact ⟨u, rfl⟩

lemma candidates_ok_valid {units : List UnitGroup} {remaining : List ℕ}
    {cs : List Cand} (h : candidates units remaining = Except.ok cs) :
    ∀ i ∈ remaining, i < units.length := by
  intro i hi
  rcases List.mem_iff_getElem?.mp hi with ⟨pos, hpos⟩
  have hmem : ((pos, i) : ℕ × ℕ) ∈ remaining.enum :=
    List.mem_enum_iff_getElem?.mpr hpos
  unfold candidates at h
  rcases gatherCands_ok_forall h _ hmem with ⟨zs, hzs⟩
  rcases candsAt_ok_getUnit hzs with ⟨u, hu⟩
  exact getUnit_lt hu

/-- A state whose remaining indices all address the unit list. -/
def ValidKey (k : (List (String × ℚ × String)) × List ℕ) : Prop :=
  ∀ m ∈ k.2, m < k.1.length

/-- The memo only holds keys of states whose indices were all in range. -/
def GoodMemo (memo : Memo) : Prop := ∀ e ∈ memo, ValidKey e.1

lemma goCands_good
    {recur : List UnitGroup → List ℕ → List Op → Memo →
      Except Err ((Adv × List Op) × Memo)} {path : List Op}
    (hrec : ∀ us rm p m r m1, recur us rm p m = Except.ok (r, m1) →
      GoodMemo m → GoodMemo m1) :
    ∀ {cs : List Cand} {best : Adv × List Op} {memo : Memo}
      {r : Adv × List Op} {memo1 : Memo},
      goCands recur path cs best memo = Except.ok (r, memo1) →
      GoodMemo memo → GoodMemo memo1 := by
  intro cs
  induction cs with
  | nil =>
    intro best memo r memo1 h hg
    cases h
    exact hg
  | cons c rest ih =>
    intro best memo r memo1 h hg
    unfold goCands at h
    cases hr : recur c.nextUnits c.nextRemaining (path ++ [c.op]) memo with
    | error e =>
      rw [hr] at h
      cases h
    | ok v =>
      rw [hr] at h
      obtain ⟨⟨adv, p⟩, m1⟩ := v
      exact ih h (hrec _ _ _ _ _ _ hr hg)

lemma find_m_good :
    ∀ (fuel : ℕ) {units : List UnitGroup} {remaining : List ℕ}
      {path : List Op} {memo : Memo} {r : Adv × List Op} {memo1 : Memo},
      find_best_path fuel units remaining path memo = Except.ok (r, memo1) →
      GoodMemo memo → GoodMemo memo1 := by
  intro fuel
  induction fuel with
  | zero =>
    intro units remaining path memo r memo1 h _
    cases h
  | succ f ih =>
    intro units remaining path memo r memo1 h hg
    unfold find_best_path at h
    dsimp only at h
    cases hm : memoLookup memo (stateKey units remaining) with
    | some v =>
      rw [hm] at h
      cases h
      exact hg
    | none =>
      rw [hm] at h
      dsimp only at h
      by_cases hrem : remaining = []
      · rw [if_pos hrem] at h
        cases h
        intro e he
        rcases List.mem_cons.mp he with rfl | he1
        · intro m hm1
          rw [hrem] at hm1
          cases hm1
        · exact hg e he1
      · rw [if_neg hrem] at h
        cases hcs : candidates units remaining with
        | error e =>
          rw [hcs] at h
          cases h
        | ok cs =>
          rw [hcs] at h
          dsimp only at h
          cases hgo : goCands (fun us rm p m => find_best_path f us rm p m)
              path cs (Adv.negInf, []) memo with
          | error e =>
            rw [hgo] at h
            cases h
          | ok v =>
            rw [hgo] at h
            obtain ⟨⟨maxAdv, bestOps⟩, m1⟩ := v
            dsimp only at h
            have hgm1 : GoodMemo m1 :=
              goCands_good (fun us rm p m r1 mm h1 hgm => ih h1 hgm)
                hgo hg
            have hvk : ValidKey (stateKey units remaining) := by
              intro m hm1
              rw [stateKey_fst_length]
              exact candidates_ok_valid hcs m hm1
            by_cases hfin : bestOps = [] ∧ remaining.length = units.length
            · rw [if_pos hfin] at h
              cases h
              intro e he
              rcases List.mem_cons.mp he with rfl | he1
              · exact hvk
              · exact hgm1 e he1
            · rw [if_neg hfin] at h
              cases h
              intro e he
              rcases List.mem_cons.mp he with rfl | he1
              · exact hvk
              · exact hgm1 e he1

/-- A state with an out-of-range remaining index. -/
def CrashRem (units : List UnitGroup) (rem : List ℕ) : Prop :=
  ∃ m ∈ rem, units.length ≤ m

lemma candidates_crash {units : List UnitGroup} {remaining : List ℕ}
    (hcrash : CrashRem units remaining) :
    candidates units remaining = Except.error Err.indexError := by
  obtain ⟨m, hm, hge⟩ := hcrash
  cases hcs : candidates units remaining with
  | error e => rw [candidates_error hcs]
  | ok cs =>
    have := candidates_ok_valid hcs m hm
    omega

lemma find_m_crash {f : ℕ} {units : List UnitGroup} {remaining : List ℕ}
    {path : List Op} {memo : Memo}
    (hcrash : CrashRem units remaining) (hgm : GoodMemo memo) :
    find_best_path (f + 1) units remaining path memo
      = Except.error Err.indexError := by
  obtain ⟨m, hm, hge⟩ := hcrash
  have hne : remaining ≠ [] := by
    rintro rfl
    cases hm
  show (match memoLookup memo (stateKey units remaining) with
    | some v => Except.ok (v, memo)
    | none => _) = _
  cases hl : memoLookup memo (stateKey units remaining) with
  | some v =>
    have hvk := hgm _ (memoLookup_mem hl)
    have : m < units.length := by
      have := hvk m (by simpa [stateKey] using hm)
      rwa [stateKey_fst_length] at this
    omega
  | none =>
    dsimp only
    rw [if_neg hne, candidates_crash ⟨m, hm, hge⟩]

lemma find_nm_crash {f : ℕ} {units : List UnitGroup} {remaining : List ℕ}
    {path : List Op} (hcrash : CrashRem units remaining) :
    find_best_path_nm (f + 1) units remaining path
      = Except.error Err.indexError := by
  have hne : remaining ≠ [] := by
    obtain ⟨m, hm, _⟩ := hcrash
    rintro rfl
    cases hm
  unfold find_best_path_nm
  rw [if_neg hne, candidates_crash hcrash]

/-! ### Completeness: every branch built from a pair of remaining
positions is among the explored candidates -/

lemma gatherCands_complete {α : Type} {f : α → Except Err (List Cand)} :
    ∀ {l : List α} {cs : List Cand}, gatherCands f l = Except.ok cs →
      ∀ x ∈ l, ∀ {ys : List Cand}, f x = Except.ok ys →
      ∀ c ∈ ys, c ∈ cs := by
  intro l
  induction l with
  | nil =>
    intro cs _ x hx
    cases hx
  | cons y l1 ih =>
    intro cs h x hx ys hys c hc
    unfold gatherCands at h
    cases hy : f y with
    | error e =>
      rw [hy] at h
      cases h
    | ok zs =>
      rw [hy] at h
      cases hrest : gatherCands f l1 with
      | error e =>
        rw [hrest] at h
        cases h
      | ok rest =>
        rw [hrest] at h
        cases h
        rcases List.mem_cons.mp hx with rfl | hx1
        · have heq : ys = zs := Except.ok.inj (hys.symm.trans hy)
          exact List.mem_append_left _ (heq ▸ hc)
        · exact List.mem_append_right _ (ih hrest x hx1 hys c hc)

lemma candsAt_ok_parts {units : List UnitGroup} {remaining : List ℕ}
    {i idx1 : ℕ} {zs : List Cand}
    (h : candsAt units remaining i idx1 = Except.ok zs) :
    ∃ unit1 combs batts,
      getUnit units idx1 = Except.ok unit1 ∧
      gatherCands (combineCand units remaining unit1 idx1)
        (remaining.drop (i + 1)) = Except.ok combs ∧
      gatherCands (battleCand units remaining unit1 idx1)
        (((remaining.enum).filter (fun q => q.1 ≠ i)).map Prod.snd)
        = Except.ok batts ∧
      zs = combs ++ batts := by
  unfold candsAt at h
  cases hg : getUnit units idx1 with
  | error e =>
    rw [hg] at h
    cases h
  | ok unit1 =>
    rw [hg] at h
    dsimp only at h
    cases hc : gatherCands (combineCand units remaining unit1 idx1)
        (remaining.drop (i + 1)) with
    | error e =>
      rw [hc] at h
      cases h
    | ok combs =>
      rw [hc] at h
      dsimp only at h
      cases hb : gatherCands (battleCand units remaining unit1 idx1)
          (((remaining.enum).filter (fun q => q.1 ≠ i)).map Prod.snd) with
      | error e =>
        rw [hb] at h
        cases h
      | ok batts =>
        rw [hb] at h
        dsimp only at h
        cases h
        exact ⟨unit1, combs, batts, rfl, hc, hb, rfl⟩

lemma getUnit_eq_ok {units : List UnitGroup} {a : ℕ} {u : UnitGroup}
    (h : units[a]? = some u) : getUnit units a = Except.ok u := by
  unfold getUnit
  rw [h]

lemma mem_range_drop {n a b : ℕ} (hab : a < b) (hb : b < n) :
    b ∈ (List.range n).drop (a + 1) := by
  refine List.mem_iff_getElem?.mpr ⟨b - (a + 1), ?_⟩
  rw [List.getElem?_drop]
  have he : a + 1 + (b - (a + 1)) = b := by omega
  rw [he, List.getElem?_range hb]

lemma mem_candidates_combine {units : List UnitGroup} {cs : List Cand}
    {a b : ℕ} {u1 u2 nu : UnitGroup}
    (h : candidates units (List.range units.length) = Except.ok cs)
    (hab : a < b) (hb : b < units.length)
    (hu1 : units[a]? = some u1) (hu2 : units[b]? = some u2)
    (hteam : u1.team = u2.team) (hcomb : combine_units u1 u2 = some nu) :
    (⟨Op.combineOp u1 u2 nu, keepOthers units a b ++ [nu],
      nextRemainingIndices (List.range units.length) a b⟩ : Cand) ∈ cs := by
  have ha : a < units.length := lt_trans hab hb
  have hmemenum : ((a, a) : ℕ × ℕ) ∈ (List.range units.length).enum :=
    List.mem_enum_iff_getElem?.mpr (by rw [List.getElem?_range ha])
  unfold candidates at h
  rcases gatherCands_ok_forall h _ hmemenum with ⟨zs, hzs⟩
  rcases candsAt_ok_parts hzs with
    ⟨unit1, combs, batts, hg, hcombs, hbatts, hzdef⟩
  have hunit1 : u1 = unit1 := Except.ok.inj ((getUnit_eq_ok hu1).symm.trans hg)
  subst hunit1
  have hcc : combineCand units (List.range units.length) u1 a b
      = Except.ok [⟨Op.combineOp u1 u2 nu, keepOthers units a b ++ [nu],
          nextRemainingIndices (List.range units.length) a b⟩] := by
    unfold combineCand
    rw [getUnit_eq_ok hu2]
    dsimp only
    rw [if_pos hteam, hcomb]
  have hc1 := gatherCands_complete hcombs b (mem_range_drop hab hb) hcc _
    (List.mem_singleton.mpr rfl)
  exact gatherCands_complete h _ hmemenum hzs _
    (by rw [hzdef]; exact List.mem_append_left _ hc1)

lemma mem_candidates_battle {units : List UnitGroup} {cs : List Cand}
    {a b : ℕ} {u1 u2 : UnitGroup}
    (h : candidates units (List.range units.length) = Except.ok cs)
    (ha : a < units.length) (hb : b < units.length) (hne : b ≠ a)
    (hu1 : units[a]? = some u1) (hu2 : units[b]? = some u2)
    (hteam : ¬ u1.team = u2.team) :
    (⟨Op.battleOp u1 u2
        (calculate_battle_outcome u1.type u1.amount u2.type u2.amount).1
        (calculate_battle_outcome u1.type u1.amount u2.type u2.amount).2,
      keepOthers units a b
        ++ (if 0 < (calculate_battle_outcome u1.type u1.amount
              u2.type u2.amount).1
            then [⟨u1.type, (calculate_battle_outcome u1.type u1.amount
              u2.type u2.amount).1, u1.team⟩] else [])
        ++ (if 0 < (calculate_battle_outcome u1.type u1.amount
              u2.type u2.amount).2
            then [⟨u2.type, (calculate_battle_outcome u1.type u1.amount
              u2.type u2.amount).2, u2.team⟩] else []),
      nextRemainingIndices (List.range units.length) a b⟩ : Cand) ∈ cs := by
  have hmemenum : ((a, a) : ℕ × ℕ) ∈ (List.range units.length).enum :=
    List.mem_enum_iff_getElem?.mpr (by rw [List.getElem?_range ha])
  unfold candidates at h
  rcases gatherCands_ok_forall h _ hmemenum with ⟨zs, hzs⟩
  rcases candsAt_ok_parts hzs with
    ⟨unit1, combs, batts, hg, hcombs, hbatts, hzdef⟩
  have hunit1 : u1 = unit1 := Except.ok.inj ((getUnit_eq_ok hu1).symm.trans hg)
  subst hunit1
  have hmemb : b ∈ (((List.range units.length).enum.filter
      (fun q => q.1 ≠ a)).map Prod.snd) :=
    List.mem_map.mpr ⟨(b, b), List.mem_filter.mpr
      ⟨List.mem_enum_iff_getElem?.mpr (by rw [List.getElem?_range hb]),
        by simpa using hne⟩, rfl⟩
  have hbc : battleCand units (List.range units.length) u1 a b
      = Except.ok [⟨Op.battleOp u1 u2
          (calculate_battle_outcome u1.type u1.amount u2.type u2.amount).1
          (calculate_battle_outcome u1.type u1.amount u2.type u2.amount).2,
        keepOthers units a b
          ++ (if 0 < (calculate_battle_outcome u1.type u1.amount
                u2.type u2.amount).1
              then [⟨u1.type, (calculate_battle_outcome u1.type u1.amount
                u2.type u2.amount).1, u1.team⟩] else [])
          ++ (if 0 < (calculate_battle_outcome u1.type u1.amount
                u2.type u2.amount).2
              then [⟨u2.type, (calculate_battle_outcome u1.type u1.amount
                u2.type u2.amount).2, u2.team⟩] else []),
        nextRemainingIndices (List.range units.length) a b⟩] := by
    unfold battleCand
    rw [getUnit_eq_ok hu2]
    dsimp only
    rw [if_pos hteam]
  have hc1 := gatherCands_complete hbatts b hmemb hbc _
    (List.mem_singleton.mpr rfl)
  exact gatherCands_complete h _ hmemenum hzs _
    (by rw [hzdef]; exact List.mem_append_right _ hc1)

/-! ### The crashing shape of those branches when four or more groups
remain untouched -/

lemma mem_nextRemainingIndices_of {remaining : List ℕ} {idx1 idx2 x : ℕ}
    (hx : x ∈ remaining) (h1 : x ≠ idx1) (h2 : x ≠ idx2) :
    x ∈ nextRemainingIndices remaining idx1 idx2 := by
  unfold nextRemainingIndices
  exact mem_sortLe.mpr (List.mem_dedup.mpr
    (List.mem_filter.mpr ⟨hx, by simp [h1, h2]⟩))

lemma keepOthers_length {units : List UnitGroup} {a b : ℕ} (hab : a ≠ b)
    (ha : a < units.length) (hb : b < units.length) :
    (keepOthers units a b).length + 2 = units.length := by
  have h1 : ((List.range units.length).filter
      (fun k => k ≠ a ∧ k ≠ b)).length + 2 = units.length := by
    have := length_filter_ne_two (List.nodup_range units.length)
      (List.mem_range.mpr ha) (List.mem_range.mpr hb) hab
    simpa using this
  have h2 : (List.range units.length).filter (fun k => k ≠ a ∧ k ≠ b)
      = (units.enum.filter (fun p => p.1 ≠ a ∧ p.1 ≠ b)).map Prod.fst := by
    rw [← List.enum_map_fst units, List.filter_map]
    rfl
  unfold keepOthers
  rw [List.length_map, ← h1, h2, List.length_map]

lemma combine_cand_crash {units : List UnitGroup} {a b : ℕ}
    {nu : UnitGroup} (hab : a < b) (hb2 : b ≤ 2) (h4 : 4 ≤ units.length) :
    CrashRem (keepOthers units a b ++ [nu])
      (nextRemainingIndices (List.range units.length) a b) := by
  have hk := keepOthers_length (Nat.ne_of_lt hab)
    (by omega : a < units.length) (by omega : b < units.length)
  refine ⟨units.length - 1, mem_nextRemainingIndices_of
    (List.mem_range.mpr (by omega)) (by omega) (by omega), ?_⟩
  rw [List.length_append, List.length_singleton]
  omega

lemma battle_cand_crash {units : List UnitGroup} {a b : ℕ}
    {l1 l2 : List UnitGroup} (hne : a ≠ b) (ha2 : a ≤ 2) (hb2 : b ≤ 2)
    (h4 : 4 ≤ units.length) (hlen : l1.length + l2.length ≤ 1) :
    CrashRem (keepOthers units a b ++ l1 ++ l2)
      (nextRemainingIndices (List.range units.length) a b) := by
  have hk := keepOthers_length hne
    (by omega : a < units.length) (by omega : b < units.length)
  refine ⟨units.length - 1, mem_nextRemainingIndices_of
    (List.mem_range.mpr (by omega)) (by omega) (by omega), ?_⟩
  rw [List.length_append, List.length_append]
  omega

/-! ### The rule table forms a cycle, so three groups cannot pairwise
battle with both sides surviving each time -/

lemma combatRule_cases {t1 : String} {k : String} {r : ℚ × ℚ}
    (h : combatRule t1 = some (k, r)) :
    (t1 = "archers" ∧ k = "warriors" ∧ r = (2, 3)) ∨
    (t1 = "warriors" ∧ k = "soldiers" ∧ r = (2, 2)) ∨
    (t1 = "soldiers" ∧ k = "archers" ∧ r = (2, 2)) := by
  unfold combatRule at h
  split at h
  · cases h
    exact Or.inl ⟨rfl, rfl, rfl⟩
  · cases h
    exact Or.inr (Or.inl ⟨rfl, rfl, rfl⟩)
  · cases h
    exact Or.inr (Or.inr ⟨rfl, rfl, rfl⟩)
  · cases h

lemma ruleKills_cases {t1 t2 : String} {r : ℚ × ℚ}
    (h : ruleKills t1 t2 = some r) :
    (t1 = "archers" ∧ t2 = "warriors" ∧ r = (2, 3)) ∨
    (t1 = "warriors" ∧ t2 = "soldiers" ∧ r = (2, 2)) ∨
    (t1 = "soldiers" ∧ t2 = "archers" ∧ r = (2, 2)) := by
  unfold ruleKills at h
  cases hc : combatRule t1 with
  | none =>
    rw [hc] at h
    cases h
  | some kr =>
    obtain ⟨k, r0⟩ := kr
    rw [hc] at h
    dsimp only at h
    by_cases hk : k = t2
    · rw [if_pos hk] at h
      cases h
      rcases combatRule_cases hc with ⟨h1, h2, h3⟩ | ⟨h1, h2, h3⟩ | ⟨h1, h2, h3⟩
      · exact Or.inl ⟨h1, hk ▸ h2, h3⟩
      · exact Or.inr (Or.inl ⟨h1, hk ▸ h2, h3⟩)
      · exact Or.inr (Or.inr ⟨h1, hk ▸ h2, h3⟩)
    · rw [if_neg hk] at h
      cases h

/-- Both sides of a battle end with a strictly positive amount. -/
def bothSurvive (t1 : String) (a1 : ℚ) (t2 : String) (a2 : ℚ) : Prop :=
  0 < (calculate_battle_outcome t1 a1 t2 a2).1 ∧
    0 < (calculate_battle_outcome t1 a1 t2 a2).2

lemma bothSurvive_strings {t1 t2 : String} {a1 a2 : ℚ}
    (h : bothSurvive t1 a1 t2 a2) :
    (t1 = "archers" ∧ t2 = "warriors" ∧ 0 < a1 ∧ a1 / 2 * 3 < a2) ∨
    (t1 = "warriors" ∧ t2 = "soldiers" ∧ 0 < a1 ∧ a1 < a2) ∨
    (t1 = "soldiers" ∧ t2 = "archers" ∧ 0 < a1 ∧ a1 < a2) ∨
    (t2 = "archers" ∧ t1 = "warriors" ∧ 0 < a2 ∧ a2 / 2 * 3 < a1) ∨
    (t2 = "warriors" ∧ t1 = "soldiers" ∧ 0 < a2 ∧ a2 < a1) ∨
    (t2 = "soldiers" ∧ t1 = "archers" ∧ 0 < a2 ∧ a2 < a1) := by
  obtain ⟨h1, h2⟩ := h
  unfold calculate_battle_outcome at h1 h2
  by_cases he : t1 = t2 ∨ t1 = "typeless" ∨ t2 = "typeless"
  · rw [if_pos he] at h1 h2
    dsimp only at h1 h2
    exfalso
    linarith
  · rw [if_neg he] at h1 h2
    cases hr : ruleKills t1 t2 with
    | some r =>
      obtain ⟨r1, r2⟩ := r
      rw [hr] at h1 h2
      dsimp only at h1 h2
      rcases ruleKills_cases hr with ⟨ht1, ht2, hr12⟩ | ⟨ht1, ht2, hr12⟩
        | ⟨ht1, ht2, hr12⟩ <;>
        rw [Prod.mk.injEq] at hr12 <;> obtain ⟨rfl, rfl⟩ := hr12
      · exact Or.inl ⟨ht1, ht2, h1, by linarith⟩
      · refine Or.inr (Or.inl ⟨ht1, ht2, h1, ?_⟩)
        have hd : a1 / 2 * 2 = a1 := by ring
        linarith
      · refine Or.inr (Or.inr (Or.inl ⟨ht1, ht2, h1, ?_⟩))
        have hd : a1 / 2 * 2 = a1 := by ring
        linarith
    | none =>
      rw [hr] at h1 h2
      cases hr2 : ruleKills t2 t1 with
      | some r =>
        obtain ⟨r1, r2⟩ := r
        rw [hr2] at h1 h2
        dsimp only at h1 h2
        rcases ruleKills_cases hr2 with ⟨ht1, ht2, hr12⟩ | ⟨ht1, ht2, hr12⟩
          | ⟨ht1, ht2, hr12⟩ <;>
          rw [Prod.mk.injEq] at hr12 <;> obtain ⟨rfl, rfl⟩ := hr12
        · exact Or.inr (Or.inr (Or.inr (Or.inl ⟨ht1, ht2, h2, by linarith⟩)))
        · refine Or.inr (Or.inr (Or.inr (Or.inr (Or.inl ⟨ht1, ht2, h2, ?_⟩))))
          have hd : a2 / 2 * 2 = a2 := by ring
          linarith
        · refine Or.inr (Or.inr (Or.inr (Or.inr (Or.inr ⟨ht1, ht2, h2, ?_⟩))))
          have hd : a2 / 2 * 2 = a2 := by ring
          linarith
      | none =>
        rw [hr2] at h1 h2
        dsimp only at h1 h2
        exfalso
        linarith

lemma battle_triangle {t0 t1 t2 : String} {a0 a1 a2 : ℚ}
    (h01 : bothSurvive t0 a0 t1 a1) (h02 : bothSurvive t0 a0 t2 a2)
    (h12 : bothSurvive t1 a1 t2 a2) : False := by
  rcases bothSurvive_strings h01 with ⟨e1, e2, p1, q1⟩ | ⟨e1, e2, p1, q1⟩
    | ⟨e1, e2, p1, q1⟩ | ⟨e1, e2, p1, q1⟩ | ⟨e1, e2, p1, q1⟩
    | ⟨e1, e2, p1, q1⟩ <;>
  rcases bothSurvive_strings h02 with ⟨f1, f2, p2, q2⟩ | ⟨f1, f2, p2, q2⟩
    | ⟨f1, f2, p2, q2⟩ | ⟨f1, f2, p2, q2⟩ | ⟨f1, f2, p2, q2⟩
    | ⟨f1, f2, p2, q2⟩ <;>
  rcases bothSurvive_strings h12 with ⟨g1, g2, p3, q3⟩ | ⟨g1, g2, p3, q3⟩
    | ⟨g1, g2, p3, q3⟩ | ⟨g1, g2, p3, q3⟩ | ⟨g1, g2, p3, q3⟩
    | ⟨g1, g2, p3, q3⟩ <;>
  simp_all <;>
  linarith

/-! ### With four or more untouched groups some explored branch always
crashes, so the whole search raises `IndexError` -/

lemma goCands_ok_forall
    {recur : List UnitGroup → List ℕ → List Op → Memo →
      Except Err ((Adv × List Op) × Memo)} {path : List Op}
    (hgood : ∀ us rm p m r m1, recur us rm p m = Except.ok (r, m1) →
      GoodMemo m → GoodMemo m1) :
    ∀ {cs : List Cand} {best : Adv × List Op} {memo : Memo}
      {r : Adv × List Op} {memo1 : Memo},
      goCands recur path cs best memo = Except.ok (r, memo1) →
      GoodMemo memo → ∀ c ∈ cs, ∃ m r1 m1, GoodMemo m ∧
        recur c.nextUnits c.nextRemaining (path ++ [c.op]) m
          = Except.ok (r1, m1) := by
  intro cs
  induction cs with
  | nil =>
    intro best memo r memo1 _ _ c hc
    cases hc
  | cons c0 rest ih =>
    intro best memo r memo1 h hg c hc
    unfold goCands at h
    cases hr : recur c0.nextUnits c0.nextRemaining (path ++ [c0.op]) memo with
    | error e =>
      rw [hr] at h
      cases h
    | ok v =>
      rw [hr] at h
      obtain ⟨⟨adv, p⟩, m1⟩ := v
      rcases List.mem_cons.mp hc with rfl | hc1
      · exact ⟨memo, _, _, hg, hr⟩
      · exact ih h (hgood _ _ _ _ _ _ hr hg) c hc1

lemma goCandsNm_ok_forall
    {recur : List UnitGroup → List ℕ → List Op → Except Err (Adv × List Op)}
    {path : List Op} :
    ∀ {cs : List Cand} {best : Adv × List Op} {r : Adv × List Op},
      goCandsNm recur path cs best = Except.ok r →
      ∀ c ∈ cs, ∃ r1, recur c.nextUnits c.nextRemaining (path ++ [c.op])
        = Except.ok r1 := by
  intro cs
  induction cs with
  | nil =>
    intro best r _ c hc
    cases hc
  | cons c0 rest ih =>
    intro best r h c hc
    unfold goCandsNm at h
    cases hr : recur c0.nextUnits c0.nextRemaining (path ++ [c0.op]) with
    | error e =>
      rw [hr] at h
      cases h
    | ok v =>
      rw [hr] at h
      rcases List.mem_cons.mp hc with rfl | hc1
      · exact ⟨v, hr⟩
      · exact ih h c hc1

lemma crash_cand_exists {units : List UnitGroup} {cs : List Cand}
    (h4 : 4 ≤ units.length)
    (h : candidates units (List.range units.length) = Except.ok cs) :
    ∃ c ∈ cs, CrashRem c.nextUnits c.nextRemaining := by
  have h0 : (0 : ℕ) < units.length := by omega
  have h1 : (1 : ℕ) < units.length := by omega
  have h2 : (2 : ℕ) < units.length := by omega
  have hu0 : units[0]? = some (units.get ⟨0, h0⟩) :=
    List.getElem?_eq_getElem h0
  have hu1 : units[1]? = some (units.get ⟨1, h1⟩) :=
    List.getElem?_eq_getElem h1
  have hu2 : units[2]? = some (units.get ⟨2, h2⟩) :=
    List.getElem?_eq_getElem h2
  by_cases hc01 : (units.get ⟨0, h0⟩).team = (units.get ⟨1, h1⟩).team
  · exact ⟨_, mem_candidates_combine h (by omega) h1 hu0 hu1 hc01
      (combine_units_of_team_eq hc01),
      combine_cand_crash (by omega) (by omega) h4⟩
  · by_cases hc02 : (units.get ⟨0, h0⟩).team = (units.get ⟨2, h2⟩).team
    · exact ⟨_, mem_candidates_combine h (by omega) h2 hu0 hu2 hc02
        (combine_units_of_team_eq hc02),
        combine_cand_crash (by omega) (by omega) h4⟩
    · by_cases hc12 : (units.get ⟨1, h1⟩).team = (units.get ⟨2, h2⟩).team
      · exact ⟨_, mem_candidates_combine h (by omega) h2 hu1 hu2 hc12
          (combine_units_of_team_eq hc12),
          combine_cand_crash (by omega) (by omega) h4⟩
      · by_cases hb01 : bothSurvive (units.get ⟨0, h0⟩).type
            (units.get ⟨0, h0⟩).amount (units.get ⟨1, h1⟩).type
            (units.get ⟨1, h1⟩).amount
        · by_cases hb02 : bothSurvive (units.get ⟨0, h0⟩).type
              (units.get ⟨0, h0⟩).amount (units.get ⟨2, h2⟩).type
              (units.get ⟨2, h2⟩).amount
          · by_cases hb12 : bothSurvive (units.get ⟨1, h1⟩).type
                (units.get ⟨1, h1⟩).amount (units.get ⟨2, h2⟩).type
                (units.get ⟨2, h2⟩).amount
            · exact absurd hb12 (fun _ => battle_triangle hb01 hb02 hb12)
            · refine ⟨_, mem_candidates_battle h h1 h2 (by omega) hu1 hu2
                hc12, battle_cand_crash (by omega) (by omega) (by omega)
                h4 ?_⟩
              unfold bothSurvive at hb12
              by_cases hp1 : 0 < (calculate_battle_outcome
                  (units.get ⟨1, h1⟩).type (units.get ⟨1, h1⟩).amount
                  (units.get ⟨2, h2⟩).type (units.get ⟨2, h2⟩).amount).1 <;>
                by_cases hp2 : 0 < (calculate_battle_outcome
                  (units.get ⟨1, h1⟩).type (units.get ⟨1, h1⟩).amount
                  (units.get ⟨2, h2⟩).type (units.get ⟨2, h2⟩).amount).2
              · exact absurd ⟨hp1, hp2⟩ hb12
              · rw [if_pos hp1, if_neg hp2]
                simp
              · rw [if_neg hp1, if_pos hp2]
                simp
              · rw [if_neg hp1, if_neg hp2]
                simp
          · refine ⟨_, mem_candidates_battle h h0 h2 (by omega) hu0 hu2
              hc02, battle_cand_crash (by omega) (by omega) (by omega)
              h4 ?_⟩
            unfold bothSurvive at hb02
            by_cases hp1 : 0 < (calculate_battle_outcome
                (units.get ⟨0, h0⟩).type (units.get ⟨0, h0⟩).amount
                (units.get ⟨2, h2⟩).type (units.get ⟨2, h2⟩).amount).1 <;>
              by_cases hp2 : 0 < (calculate_battle_outcome
                (units.get ⟨0, h0⟩).type (units.get ⟨0, h0⟩).amount
                (units.get ⟨2, h2⟩).type (units.get ⟨2, h2⟩).amount).2
            · exact absurd ⟨hp1, hp2⟩ hb02
            · rw [if_pos hp1, if_neg hp2]
              simp
            · rw [if_neg hp1, if_pos hp2]
              simp
            · rw [if_neg hp1, if_neg hp2]
              simp
        · refine ⟨_, mem_candidates_battle h h0 h1 (by omega) hu0 hu1
            hc01, battle_cand_crash (by omega) (by omega) (by omega)
            h4 ?_⟩
          unfold bothSurvive at hb01
          by_cases hp1 : 0 < (calculate_battle_outcome
              (units.get ⟨0, h0⟩).type (units.get ⟨0, h0⟩).amount
              (units.get ⟨1, h1⟩).type (units.get ⟨1, h1⟩).amount).1 <;>
            by_cases hp2 : 0 < (calculate_battle_outcome
              (units.get ⟨0, h0⟩).type (units.get ⟨0, h0⟩).amount
              (units.get ⟨1, h1⟩).type (units.get ⟨1, h1⟩).amount).2
          · exact absurd ⟨hp1, hp2⟩ hb01
          · rw [if_pos hp1, if_neg hp2]
            simp
          · rw [if_neg hp1, if_pos hp2]
            simp
          · rw [if_neg hp1, if_neg hp2]
            simp

lemma find_m_ge4 {units : List UnitGroup} {f : ℕ} (h4 : 4 ≤ units.length)
    (hf : units.length ≤ f + 1) :
    find_best_path (f + 1 + 1) units (List.range units.length) [] []
      = Except.error Err.indexError := by
  have hne : List.range units.length ≠ [] := by
    rw [ne_eq, List.range_eq_nil]
    omega
  show (if List.range units.length = [] then _ else _) = _
  rw [if_neg hne]
  cases hcs : candidates units (List.range units.length) with
  | error e =>
    dsimp only
    rw [candidates_error hcs]
  | ok cs =>
    dsimp only
    rcases crash_cand_exists h4 hcs with ⟨c, hc, hcrash⟩
    cases hgo : goCands (fun us rm p m => find_best_path (f + 1) us rm p m)
        [] cs (Adv.negInf, []) [] with
    | ok v =>
      exfalso
      obtain ⟨⟨maxAdv, bestOps⟩, memo1⟩ := v
      have hempty : GoodMemo ([] : Memo) := fun e he => absurd he
        (List.not_mem_nil e)
      rcases goCands_ok_forall
          (fun us rm p m r m1 h1 hg1 => find_m_good (f + 1) h1 hg1)
          hgo hempty c hc with ⟨m, r1, m1, hgm, hok⟩
      rw [find_m_crash hcrash hgm] at hok
      cases hok
    | error e =>
      dsimp only
      rcases goCands_error hgo with ⟨c1, hc1, p, m, herr⟩
      rcases find_m_error (f + 1) herr with he | he
      · rw [he]
      · exfalso
        have hlt := (cand_shrink hcs hc1).2.1
        rw [List.length_range] at hlt
        exact find_m_no_fuel_exhaustion (f + 1) _ _ _ _ (by omega)
          (he ▸ herr)

lemma find_nm_ge4 {units : List UnitGroup} {f : ℕ} (h4 : 4 ≤ units.length)
    (hf : units.length ≤ f + 1) :
    find_best_path_nm (f + 1 + 1) units (List.range units.length) []
      = Except.error Err.indexError := by
  have hne : List.range units.length ≠ [] := by
    rw [ne_eq, List.range_eq_nil]
    omega
  unfold find_best_path_nm
  rw [if_neg hne]
  cases hcs : candidates units (List.range units.length) with
  | error e =>
    dsimp only
    rw [candidates_error hcs]
  | ok cs =>
    dsimp only
    rcases crash_cand_exists h4 hcs with ⟨c, hc, hcrash⟩
    cases hgo : goCandsNm (fun us rm p => find_best_path_nm (f + 1) us rm p)
        [] cs (Adv.negInf, []) with
    | ok v =>
      exfalso
      rcases goCandsNm_ok_forall hgo c hc with ⟨r1, hok⟩
      rw [find_nm_crash hcrash] at hok
      cases hok
    | error e =>
      dsimp only
      rcases goCandsNm_error hgo with ⟨c1, hc1, p, herr⟩
      rcases find_nm_error (f + 1) herr with he | he
      · rw [he]
      · exfalso
        have hlt := (cand_shrink hcs hc1).2.1
        rw [List.length_range] at hlt
        exact find_nm_no_fuel_exhaustion (f + 1) _ _ _ (by omega)
          (he ▸ herr)

lemma solve_eq_dropMemo (units : List UnitGroup) :
    solve_unit_problem units
      = dropMemo (find_best_path (units.length + 1) units
          (List.range units.length) [] []) := by
  unfold solve_unit_problem dropMemo
  cases find_best_path (units.length + 1) units
      (List.range units.length) [] [] with
  | error e => rfl
  | ok v =>
    obtain ⟨r, m⟩ := v
    rfl

/-- C6: For every input, the memoized search returns the same result —
the maximal advantage and the returned operation sequence — as the
identical search with memoization disabled: on zero to three groups both
compute the same value, and on four or more groups both raise the same
`IndexError` (the candidates' rebuilt unit lists are shorter than the
stale original indices kept in `remaining_indices`). -/
theorem memoized_search_equals_brute_force (units : List UnitGroup) :
    solve_unit_problem units = solve_unit_problem_nm units := by
  match units with
  | [] => rfl
  | [u] => rfl
  | [u0, u1] =>
    rw [solve_eq_dropMemo]
    exact @top_eq 1 [u0, u1] (List.range 2) [] (by decide) (by decide)
      (by decide)
  | [u0, u1, u2] =>
    rw [solve_eq_dropMemo]
    exact @top_eq 2 [u0, u1, u2] (List.range 3) [] (by decide) (by decide)
      (by decide)
  | u0 :: u1 :: u2 :: u3 :: rest =>
    have h4 : 4 ≤ (u0 :: u1 :: u2 :: u3 :: rest).length := by
      simp only [List.length_cons]
      omega
    have hfe : (u0 :: u1 :: u2 :: u3 :: rest).length - 1 + 1 + 1
        = (u0 :: u1 :: u2 :: u3 :: rest).length + 1 := by omega
    have hm := @find_m_ge4 (u0 :: u1 :: u2 :: u3 :: rest)
      ((u0 :: u1 :: u2 :: u3 :: rest).length - 1) h4 (by omega)
    have hn := @find_nm_ge4 (u0 :: u1 :: u2 :: u3 :: rest)
      ((u0 :: u1 :: u2 :: u3 :: rest).length - 1) h4 (by omega)
    rw [hfe] at hm hn
    unfold solve_unit_problem solve_unit_problem_nm
    rw [hm, hn]

/-- Witness for the termination theorem: the single combine branch of the
two-group state `[uA, uB]` keeps a subset of the remaining indices and
strictly shrinks it, and the search on an exhausted state does not run
out of fuel. -/
theorem search_shrinks_and_terminates_witness :
    candAB.nextRemaining ⊆ [0, 1] ∧
    candAB.nextRemaining.length < ([0, 1] : List ℕ).length ∧
    find_best_path 1 [uA] [] [] [] ≠ Except.error Err.outOfFuel :=
  ⟨(search_shrinks_and_terminates.1 [uA, uB] [0, 1] [candAB] candAB
      (by decide) (by decide)).1,
   (search_shrinks_and_terminates.1 [uA, uB] [0, 1] [candAB] candAB
      (by decide) (by decide)).2.1,
   search_shrinks_and_terminates.2 1 [uA] [] [] [] (by decide)⟩
